import Mathlib

/-!
Verification of the order-stat crate's core: the Floyd–Rivest selection
algorithm (src/floyd_rivest.rs), the public wrappers `kth` and `kth_by`
(src/lib.rs), and the median-of-medians approximate-median estimator with
its five-element network (src/mom.rs).

The Rust code is shallowly embedded: the mutable slice is a `List α`, a
comparator is `α → α → Ordering`, and every fallible step returns
`Res α β = Except (Err × List α) β`, where an error carries the state of
the array at the moment of failure.  `Err.panic` models a safe Rust panic
(slice bounds check, failed assert, usize-underflow of `array.len() - 1`
in debug mode); `Err.ub` models an out-of-bounds access through a raw
pointer (`arr_ptr.add(..)` in the source), i.e. undefined behaviour; and
`Err.fuelOut` is exhaustion of the structural recursion bound that makes
the embedding total (the loops of the source are not syntactically
bounded; the theorems below show the supplied fuel is never exhausted
under the documented preconditions).

The floating-point sub-range estimate of Floyd–Rivest
(`floyd_rivest.rs` lines 21-31: the f32 formula using ln/exp/sqrt) is the
one part that is abstracted: it is a pure function of
`(left, right, k)`, so the embedding takes an arbitrary
`sampler : Nat → Nat → Nat → Nat × Nat` returning the two unclamped cast
results, and applies the source's clamps `max left _` / `min right _`
itself.  Theorems that need the recursion to terminate assume the sampler
is `Shrinking` (the clamped sub-range is strictly narrower than the
range), which holds for the source's formula since the sampled span is
about n^(2/3) widths for ranges of n > 601 elements; all other theorems
hold for every sampler.
-/

namespace OrderStat

/-- Consistency of a comparator, as assumed by the crate's documentation: a
total pre-order, with the same two elements always comparing the same way.
`symm` says the comparator answers antisymmetrically (and hence reflexively
`eq`), `le_trans` that not-greater is transitive. -/
structure CmpOK {α : Type} (cmp : α → α → Ordering) : Prop where
  symm : ∀ x y, cmp x y = (cmp y x).swap
  le_trans : ∀ {x y z}, cmp x y ≠ .gt → cmp y z ≠ .gt → cmp x z ≠ .gt

namespace CmpOK

variable {α : Type} {cmp : α → α → Ordering}

theorem refl (h : CmpOK cmp) (x : α) : cmp x x = .eq := by
  have hs := h.symm x x
  cases hx : cmp x x
  · rw [hx] at hs; exact absurd hs (by decide)
  · rfl
  · rw [hx] at hs; exact absurd hs (by decide)

theorem lt_iff (h : CmpOK cmp) {x y : α} : cmp x y = .lt ↔ cmp y x = .gt := by
  rw [h.symm x y]
  cases cmp y x <;> simp [Ordering.swap]

theorem gt_iff (h : CmpOK cmp) {x y : α} : cmp x y = .gt ↔ cmp y x = .lt := by
  rw [h.symm x y]
  cases cmp y x <;> simp [Ordering.swap]

theorem not_gt_iff (h : CmpOK cmp) {x y : α} : cmp x y ≠ .gt ↔ cmp y x ≠ .lt := by
  constructor
  · intro hxy hyx
    exact hxy (h.gt_iff.2 hyx)
  · intro hyx hxy
    exact hyx (h.gt_iff.1 hxy)

theorem not_lt_iff (h : CmpOK cmp) {x y : α} : cmp x y ≠ .lt ↔ cmp y x ≠ .gt := by
  constructor
  · intro hxy hyx
    exact hxy (h.lt_iff.2 hyx)
  · intro hyx hxy
    exact hyx (h.lt_iff.1 hxy)

theorem le_of_lt (_h : CmpOK cmp) {x y : α} (hxy : cmp x y = .lt) : cmp x y ≠ .gt := by
  rw [hxy]; intro hc; cases hc

theorem eq_of_not_lt_not_gt (_h : CmpOK cmp) {x y : α} (h1 : cmp x y ≠ .lt)
    (h2 : cmp x y ≠ .gt) : cmp x y = .eq := by
  cases hxy : cmp x y
  · exact absurd hxy h1
  · rfl
  · exact absurd hxy h2

theorem lt_of_lt_of_le (h : CmpOK cmp) {x y z : α} (h1 : cmp x y = .lt)
    (h2 : cmp y z ≠ .gt) : cmp x z = .lt := by
  by_contra hxz
  have hzx : cmp z x ≠ .gt := h.not_lt_iff.1 hxz
  have hyx : cmp y x ≠ .gt := h.le_trans h2 hzx
  exact hyx (h.lt_iff.1 h1)

theorem lt_of_le_of_lt (h : CmpOK cmp) {x y z : α} (h1 : cmp x y ≠ .gt)
    (h2 : cmp y z = .lt) : cmp x z = .lt := by
  by_contra hxz
  have hzx : cmp z x ≠ .gt := h.not_lt_iff.1 hxz
  have hzy : cmp z y ≠ .gt := h.le_trans hzx h1
  exact hzy (h.lt_iff.1 h2)

end CmpOK

/-- Swap of two positions of a list, the effect of Rust's `slice::swap(i, j)`
(and of `ptr::swap` of two in-bounds elements).  Out of range it is the
identity; the embeddings below only reach it after the corresponding bounds
checks. -/
def swapL {α : Type} (l : List α) (i j : Nat) : List α :=
  match l[i]?, l[j]? with
  | some x, some y => (l.set i y).set j x
  | _, _ => l

theorem length_swapL {α : Type} (l : List α) (i j : Nat) :
    (swapL l i j).length = l.length := by
  unfold swapL
  cases l[i]? <;> cases l[j]? <;> simp

theorem getElem?_swapL {α : Type} (l : List α) (i j : Nat) (hi : i < l.length)
    (hj : j < l.length) (x : Nat) :
    (swapL l i j)[x]? = if x = i then l[j]? else if x = j then l[i]? else l[x]? := by
  have hi' := List.getElem?_eq_getElem hi
  have hj' := List.getElem?_eq_getElem hj
  unfold swapL
  rw [hi', hj']
  by_cases hxj : x = j
  · subst hxj
    rw [List.getElem?_set_self (by simpa using hj)]
    by_cases hxi : x = i
    · subst hxi
      simp [hi', hj']
    · simp [hxi, hi']
  · rw [List.getElem?_set_ne (fun h => hxj h.symm)]
    by_cases hxi : x = i
    · subst hxi
      rw [List.getElem?_set_self hi]
      simp [hxj, hj']
    · rw [List.getElem?_set_ne (fun h => hxi h.symm)]
      simp [hxi, hxj]

theorem swap_cons_perm {α : Type} (x : α) (l : List α) (j : Nat) (hj : j < l.length) :
    (l[j] :: l.set j x).Perm (x :: l) := by
  induction l generalizing j with
  | nil => cases hj
  | cons z t ih =>
    cases j with
    | zero => simpa using List.Perm.swap x z t
    | succ j =>
      have hj' : j < t.length := by simpa using hj
      have step : (t[j] :: z :: t.set j x).Perm (z :: t[j] :: t.set j x) :=
        List.Perm.swap z (t[j]) (t.set j x)
      have ihj : (t[j] :: t.set j x).Perm (x :: t) := ih j hj'
      have h2 : (z :: t[j] :: t.set j x).Perm (z :: x :: t) := ihj.cons z
      have h3 : (t[j] :: z :: t.set j x).Perm (z :: x :: t) := step.trans h2
      have final : (z :: x :: t).Perm (x :: z :: t) := List.Perm.swap x z t
      simpa using h3.trans final

theorem perm_swapL {α : Type} (l : List α) (i j : Nat) : (swapL l i j).Perm l := by
  induction l generalizing i j with
  | nil => simp [swapL]
  | cons z t ih =>
    cases i with
    | zero =>
      cases j with
      | zero =>
        simp [swapL]
      | succ j =>
        cases hj : t[j]? with
        | none =>
          unfold swapL
          simp [hj]
        | some y =>
          have hjl : j < t.length := (List.getElem?_eq_some_iff.1 hj).1
          have hy : t[j] = y := by
            have hg := List.getElem?_eq_getElem hjl
            rw [hj] at hg; exact (Option.some_inj.1 hg).symm
          have hred : swapL (z :: t) 0 (j+1) = ((z :: t).set 0 y).set (j+1) z := by
            unfold swapL
            simp only [List.getElem?_cons_zero, List.getElem?_cons_succ]
            rw [hj]
          rw [hred]
          simp only [List.set_cons_zero, List.set_cons_succ]
          rw [← hy]
          exact swap_cons_perm z t j hjl
    | succ i =>
      cases j with
      | zero =>
        cases hi : t[i]? with
        | none =>
          unfold swapL
          simp [hi]
        | some y =>
          have hil : i < t.length := (List.getElem?_eq_some_iff.1 hi).1
          have hy : t[i] = y := by
            have hg := List.getElem?_eq_getElem hil
            rw [hi] at hg; exact (Option.some_inj.1 hg).symm
          have hred : swapL (z :: t) (i+1) 0 = ((z :: t).set (i+1) z).set 0 y := by
            unfold swapL
            simp only [List.getElem?_cons_zero, List.getElem?_cons_succ]
            rw [hi]
          rw [hred]
          simp only [List.set_cons_zero, List.set_cons_succ]
          rw [← hy]
          exact swap_cons_perm z t i hil
      | succ j =>
        cases hi : t[i]? with
        | none =>
          unfold swapL
          simp [hi]
        | some x =>
          cases hj : t[j]? with
          | none =>
            unfold swapL
            simp [hi, hj]
          | some y =>
            have hred : swapL (z :: t) (i+1) (j+1) = z :: swapL t i j := by
              unfold swapL
              simp only [List.getElem?_cons_succ]
              rw [hi, hj]
              simp
            rw [hred]
            exact (ih i j).cons z

/-- Failure modes of the embedded code.  `panic` is a safe Rust panic (slice
bounds check, assert, debug-mode integer underflow); `ub` is an out-of-bounds
access through a raw pointer, i.e. undefined behaviour in the source; and
`fuelOut` is exhaustion of the embedding's recursion bound. -/
inductive Err : Type
  | panic : Err
  | ub : Err
  | fuelOut : Err
deriving DecidableEq, Repr

/-- Outcome of an embedded operation: either a payload, or an error together
with the state of the array at the moment of failure. -/
abbrev Res (α : Type) (β : Type) : Type := Except (Err × List α) β

/-- Rust's bounds-checked `slice::swap(i, j)`: panics (without mutating) when
an index is out of range. -/
def swapE {α : Type} (l : List α) (i j : Nat) : Res α (List α) :=
  if i < l.length ∧ j < l.length then .ok (swapL l i j) else .error (.panic, l)

/-- Raw-pointer swap `ptr::swap(arr_ptr.add(i), arr_ptr.add(j))`: no bounds
check in the source, so an out-of-range index is undefined behaviour. -/
def ptrSwapE {α : Type} (l : List α) (i j : Nat) : Res α (List α) :=
  if i < l.length ∧ j < l.length then .ok (swapL l i j) else .error (.ub, l)

theorem swapE_ok {α : Type} {l l' : List α} {i j : Nat}
    (h : swapE l i j = .ok l') : i < l.length ∧ j < l.length ∧ l' = swapL l i j := by
  unfold swapE at h
  split at h
  · rename_i hb
    exact ⟨hb.1, hb.2, (Except.ok.injEq _ _ ▸ h).symm⟩
  · cases h

theorem ptrSwapE_ok {α : Type} {l l' : List α} {i j : Nat}
    (h : ptrSwapE l i j = .ok l') : i < l.length ∧ j < l.length ∧ l' = swapL l i j := by
  unfold ptrSwapE at h
  split at h
  · rename_i hb
    exact ⟨hb.1, hb.2, (Except.ok.injEq _ _ ▸ h).symm⟩
  · cases h

theorem swapE_ok_of_lt {α : Type} {l : List α} {i j : Nat}
    (hi : i < l.length) (hj : j < l.length) : swapE l i j = .ok (swapL l i j) := by
  unfold swapE
  simp [hi, hj]

theorem ptrSwapE_ok_of_lt {α : Type} {l : List α} {i j : Nat}
    (hi : i < l.length) (hj : j < l.length) : ptrSwapE l i j = .ok (swapL l i j) := by
  unfold ptrSwapE
  simp [hi, hj]

/-- The mutation performed by a code fragment is confined to the set `S` of
positions: length is preserved, positions outside `S` are untouched, and each
position of `S` holds a value that some position of `S` held before. -/
def MovedWithin {α : Type} (S : Nat → Prop) (a a' : List α) : Prop :=
  a'.length = a.length ∧
  (∀ x, x < a.length → ¬ S x → a'[x]? = a[x]?) ∧
  (∀ x, x < a.length → S x → ∃ y, y < a.length ∧ S y ∧ a'[x]? = a[y]?)

theorem MovedWithin.rfl {α : Type} (S : Nat → Prop) (a : List α) : MovedWithin S a a :=
  ⟨Eq.refl _, fun _ _ _ => Eq.refl _, fun x hx hS => ⟨x, hx, hS, Eq.refl _⟩⟩

theorem MovedWithin.comp {α : Type} {S : Nat → Prop} {a b c : List α}
    (h1 : MovedWithin S a b) (h2 : MovedWithin S b c) : MovedWithin S a c := by
  obtain ⟨hl1, ho1, hi1⟩ := h1
  obtain ⟨hl2, ho2, hi2⟩ := h2
  refine ⟨hl2.trans hl1, ?_, ?_⟩
  · intro x hx hS
    rw [ho2 x (hl1 ▸ hx) hS, ho1 x hx hS]
  · intro x hx hS
    obtain ⟨y, hy, hSy, hxy⟩ := hi2 x (hl1 ▸ hx) hS
    obtain ⟨z, hz, hSz, hyz⟩ := hi1 y (hl1 ▸ hy) hSy
    exact ⟨z, hz, hSz, hxy.trans hyz⟩

theorem MovedWithin.mono {α : Type} {S T : Nat → Prop} {a a' : List α}
    (hST : ∀ x, S x → T x) (h : MovedWithin S a a') : MovedWithin T a a' := by
  obtain ⟨hl, ho, hi⟩ := h
  refine ⟨hl, ?_, ?_⟩
  · intro x hx hT
    exact ho x hx (fun hS => hT (hST x hS))
  · intro x hx hT
    by_cases hS : S x
    · obtain ⟨y, hy, hSy, hxy⟩ := hi x hx hS
      exact ⟨y, hy, hST y hSy, hxy⟩
    · exact ⟨x, hx, hT, ho x hx hS⟩

theorem MovedWithin.swapL {α : Type} {S : Nat → Prop} (a : List α) {i j : Nat}
    (hi : i < a.length) (hj : j < a.length) (hSi : S i) (hSj : S j) :
    MovedWithin S a (OrderStat.swapL a i j) := by
  refine ⟨length_swapL a i j, ?_, ?_⟩
  · intro x hx hS
    rw [getElem?_swapL a i j hi hj x]
    have hxi : x ≠ i := fun h => hS (h ▸ hSi)
    have hxj : x ≠ j := fun h => hS (h ▸ hSj)
    simp [hxi, hxj]
  · intro x hx hS
    rw [getElem?_swapL a i j hi hj x]
    by_cases hxi : x = i
    · exact ⟨j, hj, hSj, by simp [hxi]⟩
    · by_cases hxj : x = j
      · refine ⟨i, hi, hSi, ?_⟩
        simp only [hxi, if_false, hxj, if_true]
        split
        · rename_i h
          rw [h]
        · rfl
      · exact ⟨x, hx, hS, by simp [hxi, hxj]⟩

/-- Embedding of the upward scan `while cmp(&*arr_ptr.add(i), t) == Less { i += 1 }`
(floyd_rivest.rs lines 54-56 and 76-78).  The source reads through a raw
pointer with no bounds check, so a read at an out-of-range index is the `ub`
error.  `fuel` bounds the recursion; the callers pass `a.length + 1`, which
the lemmas below show is never exhausted. -/
def scanLt {α : Type} (cmp : α → α → Ordering) : Nat → List α → α → Nat → Res α Nat
  | 0, a, _, _ => .error (.fuelOut, a)
  | fuel+1, a, t, i =>
    match a[i]? with
    | none => .error (.ub, a)
    | some v => if cmp v t = .lt then scanLt cmp fuel a t (i+1) else .ok i

/-- Embedding of the downward scan `while cmp(&*arr_ptr.add(j), t) == Greater { j -= 1 }`
(floyd_rivest.rs lines 57-59 and 79-81).  When `j = 0` the source's
`j -= 1` wraps the usize around, so the next raw read is out of bounds; the
embedding reports that as the `ub` error at once. -/
def scanGt {α : Type} (cmp : α → α → Ordering) : Nat → List α → α → Nat → Res α Nat
  | 0, a, _, _ => .error (.fuelOut, a)
  | fuel+1, a, t, j =>
    match a[j]? with
    | none => .error (.ub, a)
    | some v =>
      if cmp v t = .gt then
        if j = 0 then .error (.ub, a) else scanGt cmp fuel a t (j-1)
      else .ok j

theorem scanLt_ok_facts {α : Type} {cmp : α → α → Ordering} :
    ∀ {fuel : Nat} {a : List α} {t : α} {i i' : Nat},
    scanLt cmp fuel a t i = .ok i' →
    i ≤ i' ∧ i' < a.length ∧
    (∀ x, i ≤ x → x < i' → ∀ v, a[x]? = some v → cmp v t = .lt) ∧
    (∀ v, a[i']? = some v → cmp v t ≠ .lt) := by
  intro fuel
  induction fuel with
  | zero => intro a t i i' h; cases h
  | succ fuel ih =>
    intro a t i i' h
    unfold scanLt at h
    cases hv : a[i]? with
    | none => rw [hv] at h; cases h
    | some v =>
      rw [hv] at h
      dsimp only at h
      by_cases hlt : cmp v t = .lt
      · rw [if_pos hlt] at h
        obtain ⟨h1, h2, h3, h4⟩ := ih h
        refine ⟨by omega, h2, ?_, h4⟩
        intro x hx1 hx2 w hw
        by_cases hxi : x = i
        · subst hxi
          rw [hv] at hw
          cases hw
          exact hlt
        · exact h3 x (by omega) hx2 w hw
      · rw [if_neg hlt] at h
        cases h
        refine ⟨Nat.le_refl _, (List.getElem?_eq_some_iff.1 hv).1, ?_, ?_⟩
        · intro x hx1 hx2
          omega
        · intro w hw
          rw [hv] at hw
          cases hw
          exact hlt

theorem scanGt_ok_facts {α : Type} {cmp : α → α → Ordering} :
    ∀ {fuel : Nat} {a : List α} {t : α} {j j' : Nat},
    scanGt cmp fuel a t j = .ok j' →
    j' ≤ j ∧ j' < a.length ∧
    (∀ y, j' < y → y ≤ j → ∀ v, a[y]? = some v → cmp v t = .gt) ∧
    (∀ v, a[j']? = some v → cmp v t ≠ .gt) := by
  intro fuel
  induction fuel with
  | zero => intro a t j j' h; cases h
  | succ fuel ih =>
    intro a t j j' h
    unfold scanGt at h
    cases hv : a[j]? with
    | none => rw [hv] at h; cases h
    | some v =>
      rw [hv] at h
      dsimp only at h
      by_cases hgt : cmp v t = .gt
      · rw [if_pos hgt] at h
        by_cases hj0 : j = 0
        · rw [if_pos hj0] at h; cases h
        · rw [if_neg hj0] at h
          obtain ⟨h1, h2, h3, h4⟩ := ih h
          refine ⟨by omega, h2, ?_, h4⟩
          intro y hy1 hy2 w hw
          by_cases hyj : y = j
          · subst hyj
            rw [hv] at hw
            cases hw
            exact hgt
          · exact h3 y hy1 (by omega) w hw
      · rw [if_neg hgt] at h
        cases h
        refine ⟨Nat.le_refl _, (List.getElem?_eq_some_iff.1 hv).1, ?_, ?_⟩
        · intro y hy1 hy2
          omega
        · intro w hw
          rw [hv] at hw
          cases hw
          exact hgt

theorem scanLt_exists {α : Type} {cmp : α → α → Ordering} :
    ∀ {fuel : Nat} {a : List α} {t : α} {i m : Nat},
    i ≤ m → m < a.length → m - i < fuel →
    (∀ v, a[m]? = some v → cmp v t ≠ .lt) →
    ∃ i', scanLt cmp fuel a t i = .ok i' ∧ i' ≤ m := by
  intro fuel
  induction fuel with
  | zero => intro a t i m h1 h2 h3 h4; omega
  | succ fuel ih =>
    intro a t i m h1 h2 h3 h4
    have hi : i < a.length := by omega
    have hv : a[i]? = some (a.get ⟨i, hi⟩) := by
      simpa using List.getElem?_eq_getElem hi
    unfold scanLt
    rw [hv]
    dsimp only
    by_cases hlt : cmp (a.get ⟨i, hi⟩) t = .lt
    · have him : i ≠ m := by
        intro he
        subst he
        exact (h4 _ hv) hlt
      obtain ⟨i', hok, hle⟩ := @ih a t (i+1) m (by omega) h2 (by omega) h4
      refine ⟨i', ?_, hle⟩
      rw [if_pos hlt]
      exact hok
    · refine ⟨i, ?_, h1⟩
      rw [if_neg hlt]

theorem scanGt_exists {α : Type} {cmp : α → α → Ordering} :
    ∀ {fuel : Nat} {a : List α} {t : α} {j m : Nat},
    m ≤ j → j < a.length → j - m < fuel →
    (∀ v, a[m]? = some v → cmp v t ≠ .gt) →
    ∃ j', scanGt cmp fuel a t j = .ok j' ∧ m ≤ j' := by
  intro fuel
  induction fuel with
  | zero => intro a t j m h1 h2 h3 h4; omega
  | succ fuel ih =>
    intro a t j m h1 h2 h3 h4
    have hj : j < a.length := h2
    have hv : a[j]? = some (a.get ⟨j, hj⟩) := by
      simpa using List.getElem?_eq_getElem hj
    unfold scanGt
    rw [hv]
    dsimp only
    by_cases hgt : cmp (a.get ⟨j, hj⟩) t = .gt
    · have hjm : j ≠ m := by
        intro he
        subst he
        exact (h4 _ hv) hgt
      obtain ⟨j', hok, hle⟩ := @ih a t (j-1) m (by omega) (by omega) (by omega) h4
      refine ⟨j', ?_, hle⟩
      rw [if_pos hgt]
      rw [if_neg (show ¬ j = 0 by omega)]
      exact hok
    · refine ⟨j, ?_, h1⟩
      rw [if_neg hgt]

/-- Embedding of the inner swap loop of the partition
(floyd_rivest.rs lines 71-83):
`while i < j { ptr::swap(i, j); i += 1; j -= 1; scan i up; scan j down }`.
The result is the final array and the final value of `j`, the only variable
the source uses afterwards.  The callers pass `a.length + 1` as fuel. -/
def innerLoop {α : Type} (cmp : α → α → Ordering) :
    Nat → List α → α → Nat → Nat → Res α (List α × Nat)
  | 0, a, _, _, _ => .error (.fuelOut, a)
  | fuel+1, a, t, i, j =>
    if i < j then
      match ptrSwapE a i j with
      | .error e => .error e
      | .ok a1 =>
        match scanLt cmp (a1.length+1) a1 t (i+1) with
        | .error e => .error e
        | .ok i' =>
          match scanGt cmp (a1.length+1) a1 t (j-1) with
          | .error e => .error e
          | .ok j' => innerLoop cmp fuel a1 t i' j'
    else .ok (a, j)

theorem innerLoop_perm {α : Type} {cmp : α → α → Ordering} :
    ∀ {fuel : Nat} {a : List α} {t : α} {i j : Nat} {a' : List α} {j' : Nat},
    innerLoop cmp fuel a t i j = .ok (a', j') →
    a'.Perm a ∧ a'.length = a.length := by
  intro fuel
  induction fuel with
  | zero => intro a t i j a' j' h; cases h
  | succ fuel ih =>
    intro a t i j a' j' h
    unfold innerLoop at h
    by_cases hij : i < j
    · rw [if_pos hij] at h
      cases hsw : ptrSwapE a i j with
      | error e => rw [hsw] at h; cases h
      | ok b =>
        rw [hsw] at h
        dsimp only at h
        obtain ⟨hbi, hbj, hbeq⟩ := ptrSwapE_ok hsw
        cases hs1 : scanLt cmp (b.length+1) b t (i+1) with
        | error e => rw [hs1] at h; cases h
        | ok i2 =>
          rw [hs1] at h
          dsimp only at h
          cases hs2 : scanGt cmp (b.length+1) b t (j-1) with
          | error e => rw [hs2] at h; cases h
          | ok j2 =>
            rw [hs2] at h
            dsimp only at h
            obtain ⟨hp, hl⟩ := ih h
            subst hbeq
            exact ⟨hp.trans (perm_swapL a i j),
              hl.trans (length_swapL a i j)⟩
    · rw [if_neg hij] at h
      cases h
      exact ⟨List.Perm.refl _, Eq.refl _⟩

theorem innerLoop_spec {α : Type} {cmp : α → α → Ordering}
    (t : α) (left right : Nat) :
    ∀ {fuel : Nat} {a : List α} {i j : Nat},
    j - i < fuel →
    left < i → i < a.length → left ≤ j → j < right → right < a.length →
    (∀ v, a[i]? = some v → cmp v t ≠ .lt) →
    (∀ v, a[j]? = some v → cmp v t ≠ .gt) →
    (∀ x, left ≤ x → x < i → ∀ v, a[x]? = some v → cmp v t ≠ .gt) →
    (∀ y, j < y → y ≤ right → ∀ v, a[y]? = some v → cmp v t ≠ .lt) →
    ∃ a' j', innerLoop cmp fuel a t i j = .ok (a', j') ∧
      a'.length = a.length ∧ a'.Perm a ∧
      MovedWithin (fun x => i ≤ x ∧ x ≤ j) a a' ∧
      left ≤ j' ∧ j' ≤ j ∧
      (∀ x, left ≤ x → x ≤ j' → ∀ v, a'[x]? = some v → cmp v t ≠ .gt) ∧
      (∀ y, j' < y → y ≤ right → ∀ v, a'[y]? = some v → cmp v t ≠ .lt) := by
  intro fuel
  induction fuel with
  | zero =>
    intro a i j hfuel
    omega
  | succ fuel ih =>
    intro a i j hfuel hli hi hlj hjr hr hstopi hstopj hlow hhigh
    by_cases hij : i < j
    · -- swap, advance both indices, rescan, loop
      have hjlen : j < a.length := by omega
      have hswap := ptrSwapE_ok_of_lt hi hjlen
      set b := swapL a i j with hbdef
      have hblen : b.length = a.length := length_swapL a i j
      have hbget : ∀ x, b[x]? = if x = i then a[j]? else if x = j then a[i]? else a[x]? :=
        getElem?_swapL a i j hi hjlen
      -- the value now at i came from j, and conversely
      have hbi : ∀ v, b[i]? = some v → cmp v t ≠ .gt := by
        intro v hv
        rw [hbget i, if_pos (Eq.refl _)] at hv
        exact hstopj v hv
      have hbj : ∀ v, b[j]? = some v → cmp v t ≠ .lt := by
        intro v hv
        have hji : ¬ j = i := by omega
        rw [hbget j, if_neg hji, if_pos (Eq.refl _)] at hv
        exact hstopi v hv
      -- untouched positions
      have hbout : ∀ x, ¬ x = i → ¬ x = j → b[x]? = a[x]? := by
        intro x h1 h2
        rw [hbget x, if_neg h1, if_neg h2]
      -- upward rescan stops at `right` at the latest
      have hsentR : ∀ v, b[right]? = some v → cmp v t ≠ .lt := by
        intro v hv
        rw [hbout right (by omega) (by omega)] at hv
        exact hhigh right (by omega) (Nat.le_refl _) v hv
      obtain ⟨i2, hscan1, hi2r⟩ :=
        scanLt_exists (show i+1 ≤ right by omega) (by omega)
          (show right - (i+1) < b.length + 1 by omega) hsentR
      obtain ⟨hi2lb, hi2len, hscan1reg, hscan1stop⟩ := scanLt_ok_facts hscan1
      -- downward rescan stops at `left` at the latest
      have hsentL : ∀ v, b[left]? = some v → cmp v t ≠ .gt := by
        intro v hv
        rw [hbout left (by omega) (by omega)] at hv
        exact hlow left (Nat.le_refl _) (by omega) v hv
      obtain ⟨j2, hscan2, hj2lb⟩ :=
        scanGt_exists (show left ≤ j-1 by omega) (by omega)
          (show (j-1) - left < b.length + 1 by omega) hsentL
      obtain ⟨hj2ub, hj2len, hscan2reg, hscan2stop⟩ := scanGt_ok_facts hscan2
      -- the loop invariant holds again for `b`, `i2`, `j2`
      have hlow2 : ∀ x, left ≤ x → x < i2 → ∀ v, b[x]? = some v → cmp v t ≠ .gt := by
        intro x hx1 hx2 v hv
        by_cases hxi : x = i
        · exact hbi v (hxi ▸ hv)
        · by_cases hxlt : x < i
          · rw [hbout x hxi (by omega)] at hv
            exact hlow x hx1 hxlt v hv
          · have : cmp v t = .lt := hscan1reg x (by omega) hx2 v hv
            rw [this]
            intro hcon
            cases hcon
      have hhigh2 : ∀ y, j2 < y → y ≤ right → ∀ v, b[y]? = some v → cmp v t ≠ .lt := by
        intro y hy1 hy2 v hv
        by_cases hyj : y = j
        · exact hbj v (hyj ▸ hv)
        · by_cases hygt : j < y
          · rw [hbout y (by omega) hyj] at hv
            exact hhigh y hygt hy2 v hv
          · have : cmp v t = .gt := hscan2reg y hy1 (by omega) v hv
            rw [this]
            intro hcon
            cases hcon
      obtain ⟨a', j', hok, hlen, hperm, hconf, hj'lb, hj'ub, hfin1, hfin2⟩ :=
        @ih b i2 j2 (by omega) (by omega) (by omega) hj2lb (by omega)
          (by omega) hscan1stop hscan2stop hlow2 hhigh2
      refine ⟨a', j', ?_, ?_, ?_, ?_, hj'lb, by omega, hfin1, hfin2⟩
      · unfold innerLoop
        rw [if_pos hij, hswap]
        dsimp only
        rw [hscan1]
        dsimp only
        rw [hscan2]
        dsimp only
        exact hok
      · rw [hlen, hblen]
      · exact hperm.trans (perm_swapL a i j)
      · have hm1 : MovedWithin (fun x => i ≤ x ∧ x ≤ j) a b :=
          MovedWithin.swapL a hi hjlen ⟨Nat.le_refl _, by omega⟩ ⟨by omega, Nat.le_refl _⟩
        have hm2 : MovedWithin (fun x => i ≤ x ∧ x ≤ j) b a' := by
          refine hconf.mono ?_
          intro x hx
          exact ⟨by omega, by omega⟩
        exact hm1.comp hm2
    · -- loop guard fails: return the current array and `j`
      refine ⟨a, j, ?_, Eq.refl _, List.Perm.refl _, MovedWithin.rfl _ _,
        hlj, Nat.le_refl _, ?_, ?_⟩
      · unfold innerLoop
        rw [if_neg hij]
      · intro x hx1 hx2 v hv
        by_cases hxj : x = j
        · exact hstopj v (hxj ▸ hv)
        · exact hlow x hx1 (by omega) v hv
      · intro y hy1 hy2 v hv
        exact hhigh y hy1 hy2 v hv

/-- Embedding of the pivot placement (floyd_rivest.rs lines 86-91):
`if left == t_idx { array.swap(left, j) } else { j += 1; array.swap(right, j) }`;
the returned index is the final value of `j`. -/
def placePivot {α : Type} (a3 : List α) (left right tIdx j2 : Nat) :
    Res α (List α × Nat) :=
  if left = tIdx then
    match swapE a3 left j2 with
    | .error e => .error e
    | .ok a4 => .ok (a4, j2)
  else
    match swapE a3 right (j2+1) with
    | .error e => .error e
    | .ok a4 => .ok (a4, j2+1)

/-- Embedding of one partition pass after the pivot has been chosen
(floyd_rivest.rs lines 50-91): `a2` is the array with the pivot value sitting
at `tIdx` (either `left` or `right`), `t` is read through the raw pointer,
the two initial scans run, the guarded inner loop, and finally the pivot is
swapped into its resting place; the returned index is the source's final `j`,
the position of the pivot after placement. -/
def partAfterPivot {α : Type} (cmp : α → α → Ordering) (a2 : List α)
    (left right tIdx : Nat) : Res α (List α × Nat) :=
  match a2[tIdx]? with
  | none => .error (.ub, a2)
  | some t =>
    match scanLt cmp (a2.length+1) a2 t (left+1) with
    | .error e => .error e
    | .ok i1 =>
      match scanGt cmp (a2.length+1) a2 t (right-1) with
      | .error e => .error e
      | .ok j1 =>
        match (if i1 < j1 then
                (if j1 < a2.length then innerLoop cmp (a2.length+1) a2 t i1 j1
                 else .error (.panic, a2))
               else .ok (a2, j1)) with
        | .error e => .error e
        | .ok (a3, j2) => placePivot a3 left right tIdx j2

theorem placePivot_spec {α : Type} {cmp : α → α → Ordering} {a3 : List α}
    {left right tIdx j2 : Nat} {t : α}
    (hlr : left < right) (hrlen : right < a3.length)
    (htIdx : tIdx = left ∨ tIdx = right)
    (hj2lb : left ≤ j2) (hj2ub : j2 + 1 ≤ right)
    (hpivL : tIdx = left → a3[left]? = some t)
    (hpivR : tIdx = right → a3[right]? = some t)
    (hlow3 : ∀ x, left ≤ x → x ≤ j2 → ∀ v, a3[x]? = some v → cmp v t ≠ .gt)
    (hhigh3 : ∀ y, j2 < y → y ≤ right → ∀ v, a3[y]? = some v → cmp v t ≠ .lt) :
    ∃ a4 p, placePivot a3 left right tIdx j2 = .ok (a4, p) ∧
      a4.length = a3.length ∧ a4.Perm a3 ∧
      MovedWithin (fun x => left ≤ x ∧ x ≤ right) a3 a4 ∧
      left ≤ p ∧ p ≤ right ∧
      a4[p]? = some t ∧
      (∀ x, left ≤ x → x < p → ∀ v, a4[x]? = some v → cmp v t ≠ .gt) ∧
      (∀ y, p < y → y ≤ right → ∀ v, a4[y]? = some v → cmp v t ≠ .lt) := by
  have hllen : left < a3.length := by omega
  have hj2len : j2 < a3.length := by omega
  cases htIdx with
  | inl htl =>
    have hget := getElem?_swapL a3 left j2 hllen hj2len
    refine ⟨swapL a3 left j2, j2, ?_, length_swapL a3 left j2, perm_swapL a3 left j2,
      MovedWithin.swapL a3 hllen hj2len ⟨Nat.le_refl _, by omega⟩ ⟨hj2lb, by omega⟩,
      hj2lb, by omega, ?_, ?_, ?_⟩
    · unfold placePivot
      rw [if_pos htl.symm, swapE_ok_of_lt hllen hj2len]
    · rw [hget j2]
      by_cases hje : j2 = left
      · rw [if_pos hje, hje]
        exact hpivL htl
      · rw [if_neg hje, if_pos (Eq.refl _)]
        exact hpivL htl
    · intro x hx1 hx2 v hv
      rw [hget x] at hv
      by_cases hxl : x = left
      · rw [if_pos hxl] at hv
        exact hlow3 j2 hj2lb (Nat.le_refl _) v hv
      · rw [if_neg hxl, if_neg (by omega)] at hv
        exact hlow3 x hx1 (by omega) v hv
    · intro y hy1 hy2 v hv
      rw [hget y, if_neg (by omega), if_neg (by omega)] at hv
      exact hhigh3 y (by omega) hy2 v hv
  | inr htr =>
    have hne : ¬ (left = tIdx) := by
      rw [htr]
      omega
    have hp1len : j2 + 1 < a3.length := by omega
    have hget := getElem?_swapL a3 right (j2+1) hrlen hp1len
    refine ⟨swapL a3 right (j2+1), j2+1, ?_, length_swapL a3 right (j2+1),
      perm_swapL a3 right (j2+1),
      MovedWithin.swapL a3 hrlen hp1len ⟨by omega, Nat.le_refl _⟩ ⟨by omega, hj2ub⟩,
      by omega, hj2ub, ?_, ?_, ?_⟩
    · unfold placePivot
      rw [if_neg hne, swapE_ok_of_lt hrlen hp1len]
    · rw [hget (j2+1)]
      by_cases hje : j2 + 1 = right
      · rw [if_pos hje, hje]
        exact hpivR htr
      · rw [if_neg hje, if_pos (Eq.refl _)]
        exact hpivR htr
    · intro x hx1 hx2 v hv
      rw [hget x, if_neg (by omega), if_neg (by omega)] at hv
      exact hlow3 x hx1 (by omega) v hv
    · intro y hy1 hy2 v hv
      rw [hget y] at hv
      by_cases hyr : y = right
      · rw [if_pos hyr] at hv
        exact hhigh3 (j2+1) (by omega) (by omega) v hv
      · rw [if_neg hyr, if_neg (by omega)] at hv
        exact hhigh3 y (by omega) hy2 v hv

theorem partAfterPivot_spec {α : Type} {cmp : α → α → Ordering} {a2 : List α}
    {left right tIdx : Nat} {t : α}
    (hlr : left < right) (hrlen : right < a2.length)
    (htIdx : tIdx = left ∨ tIdx = right)
    (ht : a2[tIdx]? = some t)
    (hL : ∀ v, a2[left]? = some v → cmp v t ≠ .gt)
    (hR : ∀ v, a2[right]? = some v → cmp v t ≠ .lt) :
    ∃ a4 p, partAfterPivot cmp a2 left right tIdx = .ok (a4, p) ∧
      a4.length = a2.length ∧ a4.Perm a2 ∧
      MovedWithin (fun x => left ≤ x ∧ x ≤ right) a2 a4 ∧
      left ≤ p ∧ p ≤ right ∧
      a4[p]? = some t ∧
      (∀ x, left ≤ x → x < p → ∀ v, a4[x]? = some v → cmp v t ≠ .gt) ∧
      (∀ y, p < y → y ≤ right → ∀ v, a4[y]? = some v → cmp v t ≠ .lt) := by
  obtain ⟨i1, hs1, hi1r⟩ :=
    scanLt_exists (show left+1 ≤ right by omega) hrlen
      (show right - (left+1) < a2.length + 1 by omega) hR
  obtain ⟨hi1lb, hi1len, hreg1, hstop1⟩ := scanLt_ok_facts hs1
  obtain ⟨j1, hs2, hj1lb⟩ :=
    scanGt_exists (show left ≤ right-1 by omega) (by omega)
      (show (right-1) - left < a2.length + 1 by omega) hL
  obtain ⟨hj1ub, hj1len, hreg2, hstop2⟩ := scanGt_ok_facts hs2
  have low1 : ∀ x, left ≤ x → x < i1 → ∀ v, a2[x]? = some v → cmp v t ≠ .gt := by
    intro x hx1 hx2 v hv
    by_cases hxl : x = left
    · exact hL v (hxl ▸ hv)
    · have : cmp v t = .lt := hreg1 x (by omega) hx2 v hv
      rw [this]
      intro hcon
      cases hcon
  have high1 : ∀ y, j1 < y → y ≤ right → ∀ v, a2[y]? = some v → cmp v t ≠ .lt := by
    intro y hy1 hy2 v hv
    by_cases hyr : y = right
    · exact hR v (hyr ▸ hv)
    · have : cmp v t = .gt := hreg2 y hy1 (by omega) v hv
      rw [this]
      intro hcon
      cases hcon
  by_cases hij : i1 < j1
  · -- the inner swap loop runs
    have hj1len' : j1 < a2.length := by omega
    obtain ⟨a3, j2, hokIL, hlen3, hperm3, hmov3, hj2lb, hj2ub, hlow3, hhigh3⟩ :=
      innerLoop_spec t left right (show j1 - i1 < a2.length + 1 by omega)
        (by omega) hi1len hj1lb (by omega) hrlen hstop1 hstop2 low1 high1
    have hmov3' : MovedWithin (fun x => left ≤ x ∧ x ≤ right) a2 a3 := by
      refine hmov3.mono ?_
      intro x hx
      exact ⟨by omega, by omega⟩
    have hout3 := hmov3.2.1
    have hpivL : tIdx = left → a3[left]? = some t := by
      intro he
      rw [hout3 left (by omega) (by omega), ← he]
      exact ht
    have hpivR : tIdx = right → a3[right]? = some t := by
      intro he
      rw [hout3 right (by omega) (by omega), ← he]
      exact ht
    obtain ⟨a4, p, hokP, hlen4, hperm4, hmov4, hplb, hpub, hpt, hlowF, hhighF⟩ :=
      @placePivot_spec α cmp a3 left right tIdx j2 t hlr (by omega) htIdx
        hj2lb (by omega) hpivL hpivR hlow3 hhigh3
    refine ⟨a4, p, ?_, by omega, hperm4.trans hperm3, hmov3'.comp hmov4,
      hplb, hpub, hpt, hlowF, hhighF⟩
    unfold partAfterPivot
    rw [ht]
    dsimp only
    rw [hs1]
    dsimp only
    rw [hs2]
    dsimp only
    rw [if_pos hij, if_pos hj1len']
    rw [hokIL]
    dsimp only
    exact hokP
  · -- the inner loop does not run: `i >= j` already after the first scans
    have hlow3 : ∀ x, left ≤ x → x ≤ j1 → ∀ v, a2[x]? = some v → cmp v t ≠ .gt := by
      intro x hx1 hx2 v hv
      by_cases hxj : x = j1
      · exact hstop2 v (hxj ▸ hv)
      · exact low1 x hx1 (by omega) v hv
    have hpivL : tIdx = left → a2[left]? = some t := by
      intro he
      rw [← he]
      exact ht
    have hpivR : tIdx = right → a2[right]? = some t := by
      intro he
      rw [← he]
      exact ht
    obtain ⟨a4, p, hokP, hlen4, hperm4, hmov4, hplb, hpub, hpt, hlowF, hhighF⟩ :=
      @placePivot_spec α cmp a2 left right tIdx j1 t hlr hrlen htIdx
        hj1lb (by omega) hpivL hpivR hlow3 high1
    refine ⟨a4, p, ?_, hlen4, hperm4, hmov4, hplb, hpub, hpt, hlowF, hhighF⟩
    unfold partAfterPivot
    rw [ht]
    dsimp only
    rw [hs1]
    dsimp only
    rw [hs2]
    dsimp only
    rw [if_neg hij]
    dsimp only
    exact hokP

/-- Embedding of one iteration of the narrowing loop's partition work
(floyd_rivest.rs lines 36-91): swap `left` with `k`, choose the pivot
position by comparing the elements at `left` and `right` (swapping them when
the left one is not smaller — the swap here is in bounds because the two
indexed reads just succeeded), then run `partAfterPivot`. -/
def partStep {α : Type} (cmp : α → α → Ordering) (a : List α)
    (left right k : Nat) : Res α (List α × Nat) :=
  match swapE a left k with
  | .error e => .error e
  | .ok a1 =>
    match a1[left]?, a1[right]? with
    | some vl, some vr =>
      if cmp vl vr ≠ .lt then partAfterPivot cmp (swapL a1 left right) left right right
      else partAfterPivot cmp a1 left right left
    | _, _ => .error (.panic, a1)

/-- Positions a partition iteration may touch: the current inclusive range
together with the target index `k` (the very first swap of the iteration is
`array.swap(left, k)`). -/
def inReg (left right k x : Nat) : Prop := (left ≤ x ∧ x ≤ right) ∨ x = k

theorem partStep_spec {α : Type} {cmp : α → α → Ordering} (hc : CmpOK cmp)
    {a : List α} {left right k : Nat}
    (hlr : left < right) (hrlen : right < a.length) (hklen : k < a.length) :
    ∃ a4 p t, partStep cmp a left right k = .ok (a4, p) ∧
      a4.length = a.length ∧ a4.Perm a ∧
      MovedWithin (inReg left right k) a a4 ∧
      left ≤ p ∧ p ≤ right ∧
      a4[p]? = some t ∧
      (∀ x, left ≤ x → x < p → ∀ v, a4[x]? = some v → cmp v t ≠ .gt) ∧
      (∀ y, p < y → y ≤ right → ∀ v, a4[y]? = some v → cmp v t ≠ .lt) := by
  have hllen : left < a.length := by omega
  set a1 := swapL a left k with ha1
  have ha1len : a1.length = a.length := length_swapL a left k
  have hmova1 : MovedWithin (inReg left right k) a a1 :=
    MovedWithin.swapL a hllen hklen (Or.inl ⟨Nat.le_refl _, by omega⟩) (Or.inr (Eq.refl _))
  have hvl : a1[left]? = some (a1.get ⟨left, by omega⟩) := by
    simpa using List.getElem?_eq_getElem (show left < a1.length by omega)
  have hvr : a1[right]? = some (a1.get ⟨right, by omega⟩) := by
    simpa using List.getElem?_eq_getElem (show right < a1.length by omega)
  set vl := a1.get ⟨left, by omega⟩ with hvldef
  set vr := a1.get ⟨right, by omega⟩ with hvrdef
  by_cases hlt : cmp vl vr = .lt
  · -- pivot stays at `left`
    have hL : ∀ v, a1[left]? = some v → cmp v vl ≠ .gt := by
      intro v hv
      rw [hvl] at hv
      cases hv
      rw [hc.refl vl]
      intro hcon
      cases hcon
    have hR : ∀ v, a1[right]? = some v → cmp v vl ≠ .lt := by
      intro v hv
      rw [hvr] at hv
      cases hv
      rw [hc.lt_iff.1 hlt]
      intro hcon
      cases hcon
    obtain ⟨a4, p, hok, hlen, hperm, hmov, hplb, hpub, hpt, hlow, hhigh⟩ :=
      partAfterPivot_spec hlr (show right < a1.length by omega)
        (Or.inl (Eq.refl _)) hvl hL hR
    refine ⟨a4, p, vl, ?_, by omega, hperm.trans (perm_swapL a left k),
      hmova1.comp (hmov.mono (fun x hx => Or.inl hx)),
      hplb, hpub, hpt, hlow, hhigh⟩
    unfold partStep
    rw [swapE_ok_of_lt hllen hklen, ← ha1]
    dsimp only
    rw [hvl, hvr]
    dsimp only
    rw [if_neg (show ¬ cmp vl vr ≠ .lt by simp [hlt])]
    exact hok
  · -- the elements at `left` and `right` are swapped; pivot goes to `right`
    set a2 := swapL a1 left right with ha2
    have ha2len : a2.length = a.length := by
      rw [ha2, length_swapL, ha1len]
    have hget2 := getElem?_swapL a1 left right (by omega) (by omega)
    have h2l : a2[left]? = some vr := by
      rw [ha2, hget2 left, if_pos (Eq.refl _)]
      exact hvr
    have h2r : a2[right]? = some vl := by
      rw [ha2, hget2 right, if_neg (by omega), if_pos (Eq.refl _)]
      exact hvl
    have hL : ∀ v, a2[left]? = some v → cmp v vl ≠ .gt := by
      intro v hv
      rw [h2l] at hv
      cases hv
      exact hc.not_lt_iff.1 hlt
    have hR : ∀ v, a2[right]? = some v → cmp v vl ≠ .lt := by
      intro v hv
      rw [h2r] at hv
      cases hv
      rw [hc.refl vl]
      intro hcon
      cases hcon
    obtain ⟨a4, p, hok, hlen, hperm, hmov, hplb, hpub, hpt, hlow, hhigh⟩ :=
      partAfterPivot_spec hlr (show right < a2.length by omega)
        (Or.inr (Eq.refl _)) h2r hL hR
    have hmova2 : MovedWithin (inReg left right k) a1 a2 := by
      rw [ha2]
      exact MovedWithin.swapL a1 (by omega) (by omega)
        (Or.inl ⟨Nat.le_refl _, by omega⟩) (Or.inl ⟨by omega, Nat.le_refl _⟩)
    refine ⟨a4, p, vl, ?_, by omega,
      (hperm.trans (perm_swapL a1 left right)).trans (perm_swapL a left k),
      (hmova1.comp hmova2).comp (hmov.mono (fun x hx => Or.inl hx)),
      hplb, hpub, hpt, hlow, hhigh⟩
    unfold partStep
    rw [swapE_ok_of_lt hllen hklen, ← ha1]
    dsimp only
    rw [hvl, hvr]
    dsimp only
    rw [if_pos hlt, ← ha2]
    exact hok

theorem placePivot_perm {α : Type} {a3 a4 : List α} {left right tIdx j2 p : Nat}
    (h : placePivot a3 left right tIdx j2 = .ok (a4, p)) :
    a4.Perm a3 ∧ a4.length = a3.length := by
  unfold placePivot at h
  split at h
  · cases hsw : swapE a3 left j2 with
    | error e => rw [hsw] at h; cases h
    | ok b =>
      rw [hsw] at h
      dsimp only at h
      cases h
      obtain ⟨_, _, hb⟩ := swapE_ok hsw
      subst hb
      exact ⟨perm_swapL a3 left j2, length_swapL a3 left j2⟩
  · cases hsw : swapE a3 right (j2+1) with
    | error e => rw [hsw] at h; cases h
    | ok b =>
      rw [hsw] at h
      dsimp only at h
      cases h
      obtain ⟨_, _, hb⟩ := swapE_ok hsw
      subst hb
      exact ⟨perm_swapL a3 right (j2+1), length_swapL a3 right (j2+1)⟩

theorem partAfterPivot_perm {α : Type} {cmp : α → α → Ordering} {a2 a4 : List α}
    {left right tIdx p : Nat}
    (h : partAfterPivot cmp a2 left right tIdx = .ok (a4, p)) :
    a4.Perm a2 ∧ a4.length = a2.length := by
  unfold partAfterPivot at h
  cases ht : a2[tIdx]? with
  | none => rw [ht] at h; cases h
  | some t =>
    rw [ht] at h
    dsimp only at h
    cases hs1 : scanLt cmp (a2.length+1) a2 t (left+1) with
    | error e => rw [hs1] at h; cases h
    | ok i1 =>
      rw [hs1] at h
      dsimp only at h
      cases hs2 : scanGt cmp (a2.length+1) a2 t (right-1) with
      | error e => rw [hs2] at h; cases h
      | ok j1 =>
        rw [hs2] at h
        dsimp only at h
        by_cases hij : i1 < j1
        · rw [if_pos hij] at h
          by_cases hjl : j1 < a2.length
          · rw [if_pos hjl] at h
            cases hIL : innerLoop cmp (a2.length+1) a2 t i1 j1 with
            | error e => rw [hIL] at h; cases h
            | ok pr =>
              rw [hIL] at h
              dsimp only at h
              obtain ⟨hperm, hlen⟩ := innerLoop_perm hIL
              obtain ⟨hperm2, hlen2⟩ := placePivot_perm h
              exact ⟨hperm2.trans hperm, by omega⟩
          · rw [if_neg hjl] at h
            cases h
        · rw [if_neg hij] at h
          dsimp only at h
          exact placePivot_perm h

theorem partStep_perm {α : Type} {cmp : α → α → Ordering} {a a4 : List α}
    {left right k p : Nat}
    (h : partStep cmp a left right k = .ok (a4, p)) :
    a4.Perm a ∧ a4.length = a.length := by
  unfold partStep at h
  cases hsw : swapE a left k with
  | error e => rw [hsw] at h; cases h
  | ok a1 =>
    rw [hsw] at h
    dsimp only at h
    obtain ⟨_, _, ha1⟩ := swapE_ok hsw
    cases hvl : a1[left]? with
    | none => rw [hvl] at h; dsimp only at h; cases h
    | some vl =>
      cases hvr : a1[right]? with
      | none => rw [hvl, hvr] at h; dsimp only at h; cases h
      | some vr =>
        rw [hvl, hvr] at h
        dsimp only at h
        have hperm1 : a1.Perm a := by
          subst ha1
          exact perm_swapL a left k
        have hlen1 : a1.length = a.length := by
          subst ha1
          exact length_swapL a left k
        split at h
        · obtain ⟨hp, hl⟩ := partAfterPivot_perm h
          have : (swapL a1 left right).Perm a1 := perm_swapL a1 left right
          refine ⟨(hp.trans this).trans hperm1, ?_⟩
          rw [hl, length_swapL, hlen1]
        · obtain ⟨hp, hl⟩ := partAfterPivot_perm h
          exact ⟨hp.trans hperm1, by omega⟩

theorem partStep_ok_bounds {α : Type} {cmp : α → α → Ordering} {a a4 : List α}
    {left right k p : Nat}
    (h : partStep cmp a left right k = .ok (a4, p)) :
    left < a.length ∧ k < a.length ∧ right < a.length := by
  unfold partStep at h
  cases hsw : swapE a left k with
  | error e => rw [hsw] at h; cases h
  | ok a1 =>
    rw [hsw] at h
    dsimp only at h
    obtain ⟨hl, hk, ha1⟩ := swapE_ok hsw
    have hlen1 : a1.length = a.length := by
      subst ha1
      exact length_swapL a left k
    cases hvl : a1[left]? with
    | none => rw [hvl] at h; dsimp only at h; cases h
    | some vl =>
      cases hvr : a1[right]? with
      | none => rw [hvl, hvr] at h; dsimp only at h; cases h
      | some vr =>
        have hr : right < a1.length := (List.getElem?_eq_some_iff.1 hvr).1
        exact ⟨hl, hk, by omega⟩

theorem partStep_invalidK {α : Type} {cmp : α → α → Ordering} (a : List α)
    (left right k : Nat) (hk : a.length ≤ k) :
    partStep cmp a left right k = .error (.panic, a) := by
  unfold partStep swapE
  rw [if_neg (by omega)]

/-- Tuning constant of floyd_rivest.rs line 12: `const A: usize = 600`.
(The companion constant `B = 0.5` only occurs inside the floating-point
sampling formula, which the embedding abstracts as the `sampler`.) -/
def A : Nat := 600

/-- The guard of the sub-sampling shortcut, floyd_rivest.rs line 20:
`if right - left > A`. -/
def subsampleCond (left right : Nat) : Bool := decide (right - left > A)

/-- A sampler shrinks when, whenever the shortcut fires, the clamped
sub-range `[max left new_left, min right new_right]` is strictly narrower
than `[left, right]`.  The source's f32 formula has this property: the
sampled span is about `0.5 * n^(2/3)` for a range of `n > 601` elements. -/
def Shrinking (sampler : Nat → Nat → Nat → Nat × Nat) : Prop :=
  ∀ left right k, right - left > A →
    min right (sampler left right k).2 - max left (sampler left right k).1
      < right - left

/-- Embedding of `select_` (floyd_rivest.rs lines 15-99): the narrowing loop
`while right > left` with the sub-sampling recursion, one partition pass per
iteration, and the narrowing
`if j <= k { left = j + 1 }; if k <= j { right = j.saturating_sub(1) }`
(natural subtraction is Rust's saturating subtraction).  The loop itself is
the tail-recursive call on the narrowed range; `fuel` bounds the total call
depth and each nested call receives one unit less. -/
def select_ {α : Type} (cmp : α → α → Ordering)
    (sampler : Nat → Nat → Nat → Nat × Nat) :
    Nat → List α → Nat → Nat → Nat → Res α (List α)
  | 0, a, _, _, _ => .error (.fuelOut, a)
  | fuel+1, a, left, right, k =>
    if right > left then
      match (if subsampleCond left right then
               select_ cmp sampler fuel a (max left (sampler left right k).1)
                 (min right (sampler left right k).2) k
             else .ok a) with
      | .error e => .error e
      | .ok a1 =>
        match partStep cmp a1 left right k with
        | .error e => .error e
        | .ok (a2, j) =>
          select_ cmp sampler fuel a2
            (if j ≤ k then j + 1 else left)
            (if k ≤ j then j - 1 else right) k
    else .ok a

theorem select_perm {α : Type} {cmp : α → α → Ordering}
    {sampler : Nat → Nat → Nat → Nat × Nat} :
    ∀ {fuel : Nat} {a a' : List α} {left right k : Nat},
    select_ cmp sampler fuel a left right k = .ok a' →
    a'.Perm a ∧ a'.length = a.length := by
  intro fuel
  induction fuel with
  | zero => intro a a' left right k h; cases h
  | succ fuel ih =>
    intro a a' left right k h
    unfold select_ at h
    by_cases hrl : right > left
    · rw [if_pos hrl] at h
      cases hsub : (if subsampleCond left right then
          select_ cmp sampler fuel a (max left (sampler left right k).1)
            (min right (sampler left right k).2) k
        else .ok a) with
      | error e => rw [hsub] at h; cases h
      | ok a1 =>
        rw [hsub] at h
        dsimp only at h
        have hperm1 : a1.Perm a ∧ a1.length = a.length := by
          by_cases hcond : subsampleCond left right
          · rw [if_pos hcond] at hsub
            exact ih hsub
          · rw [if_neg hcond] at hsub
            cases hsub
            exact ⟨List.Perm.refl _, Eq.refl _⟩
        cases hps : partStep cmp a1 left right k with
        | error e => rw [hps] at h; cases h
        | ok pr =>
          rw [hps] at h
          dsimp only at h
          obtain ⟨hperm2, hlen2⟩ := partStep_perm hps
          obtain ⟨hperm3, hlen3⟩ := ih h
          exact ⟨(hperm3.trans hperm2).trans hperm1.1, by omega⟩
    · rw [if_neg hrl] at h
      cases h
      exact ⟨List.Perm.refl _, Eq.refl _⟩

theorem select_invalidK {α : Type} {cmp : α → α → Ordering}
    {sampler : Nat → Nat → Nat → Nat × Nat} :
    ∀ {fuel : Nat} {a : List α} {left right k : Nat}, a.length ≤ k →
    select_ cmp sampler fuel a left right k = .ok a ∨
      ∃ e, select_ cmp sampler fuel a left right k = .error (e, a) := by
  intro fuel
  induction fuel with
  | zero =>
    intro a left right k hk
    exact Or.inr ⟨.fuelOut, Eq.refl _⟩
  | succ fuel ih =>
    intro a left right k hk
    unfold select_
    by_cases hrl : right > left
    · rw [if_pos hrl]
      refine Or.inr ?_
      by_cases hcond : subsampleCond left right
      · rw [if_pos hcond]
        cases @ih a (max left (sampler left right k).1)
            (min right (sampler left right k).2) k hk with
        | inl hok =>
          rw [hok]
          dsimp only
          rw [partStep_invalidK a left right k hk]
          exact ⟨.panic, Eq.refl _⟩
        | inr herr =>
          obtain ⟨e, herr⟩ := herr
          rw [herr]
          exact ⟨e, Eq.refl _⟩
      · rw [if_neg hcond]
        dsimp only
        rw [partStep_invalidK a left right k hk]
        exact ⟨.panic, Eq.refl _⟩
    · rw [if_neg hrl]
      exact Or.inl (Eq.refl _)

/-- Settled prefix: every position left of the current range holds a value
not greater than every value inside the range. -/
def INVL {α : Type} (cmp : α → α → Ordering) (a : List α) (left right : Nat) : Prop :=
  ∀ x y, x < left → left ≤ y → y ≤ right →
    ∀ v w, a[x]? = some v → a[y]? = some w → cmp v w ≠ .gt

/-- Settled suffix: every position right of the current range holds a value
not smaller than every value inside the range. -/
def INVR {α : Type} (cmp : α → α → Ordering) (a : List α) (left right : Nat) : Prop :=
  ∀ x y, right < x → x < a.length → left ≤ y → y ≤ right →
    ∀ v w, a[y]? = some v → a[x]? = some w → cmp v w ≠ .gt

theorem INVL_moved {α : Type} {cmp : α → α → Ordering} {b bb : List α}
    {left right k : Nat} (hk1 : left ≤ k) (hk2 : k ≤ right)
    (hrb : right < b.length)
    (hmov : MovedWithin (inReg left right k) b bb)
    (h : INVL cmp b left right) : INVL cmp bb left right := by
  intro x y hx hy1 hy2 v w hv hw
  obtain ⟨hlen, hout, hin⟩ := hmov
  have hxout : bb[x]? = b[x]? := by
    refine hout x (by omega) ?_
    intro hreg
    cases hreg with
    | inl hint => omega
    | inr hxk => omega
  obtain ⟨y', hy'len, hy'reg, hy'eq⟩ :=
    hin y (by omega) (Or.inl ⟨hy1, hy2⟩)
  have hy'int : left ≤ y' ∧ y' ≤ right := by
    cases hy'reg with
    | inl hint => exact hint
    | inr hyk => omega
  rw [hxout] at hv
  rw [hy'eq] at hw
  exact h x y' hx hy'int.1 hy'int.2 v w hv hw

theorem INVR_moved {α : Type} {cmp : α → α → Ordering} {b bb : List α}
    {left right k : Nat} (hk1 : left ≤ k) (hk2 : k ≤ right)
    (hrb : right < b.length)
    (hmov : MovedWithin (inReg left right k) b bb)
    (h : INVR cmp b left right) : INVR cmp bb left right := by
  intro x y hx hxlen hy1 hy2 v w hv hw
  obtain ⟨hlen, hout, hin⟩ := hmov
  have hxout : bb[x]? = b[x]? := by
    refine hout x (by omega) ?_
    intro hreg
    cases hreg with
    | inl hint => omega
    | inr hxk => omega
  obtain ⟨y', hy'len, hy'reg, hy'eq⟩ :=
    hin y (by omega) (Or.inl ⟨hy1, hy2⟩)
  have hy'int : left ≤ y' ∧ y' ≤ right := by
    cases hy'reg with
    | inl hint => exact hint
    | inr hyk => omega
  rw [hxout] at hw
  rw [hy'eq] at hv
  exact h x y' hx (by omega) hy'int.1 hy'int.2 v w hv hw

theorem select_done {α : Type} {cmp : α → α → Ordering}
    {sampler : Nat → Nat → Nat → Nat × Nat} {fuel : Nat} {a a' : List α}
    {left right k : Nat} (hrl : ¬ right > left)
    (h : select_ cmp sampler fuel a left right k = .ok a') : a' = a := by
  cases fuel with
  | zero => cases h
  | succ fuel =>
    unfold select_ at h
    rw [if_neg hrl] at h
    cases h
    rfl

theorem select_props {α : Type} {cmp : α → α → Ordering}
    {sampler : Nat → Nat → Nat → Nat × Nat} (hc : CmpOK cmp) :
    ∀ {fuel : Nat} {a a' : List α} {left right k : Nat},
    select_ cmp sampler fuel a left right k = .ok a' →
    MovedWithin (inReg left right k) a a' := by
  intro fuel
  induction fuel with
  | zero => intro a a' left right k h; cases h
  | succ fuel ih =>
    intro a a' left right k h
    unfold select_ at h
    by_cases hrl : right > left
    · rw [if_pos hrl] at h
      cases hsub : (if subsampleCond left right then
          select_ cmp sampler fuel a (max left (sampler left right k).1)
            (min right (sampler left right k).2) k
        else .ok a) with
      | error e => rw [hsub] at h; cases h
      | ok a1 =>
        rw [hsub] at h
        dsimp only at h
        have hmov1 : MovedWithin (inReg left right k) a a1 := by
          by_cases hcond : subsampleCond left right
          · rw [if_pos hcond] at hsub
            refine (ih hsub).mono ?_
            intro x hx
            cases hx with
            | inl hint =>
              refine Or.inl ⟨?_, ?_⟩
              · omega
              · have := hint.2
                omega
            | inr hxk => exact Or.inr hxk
          · rw [if_neg hcond] at hsub
            cases hsub
            exact MovedWithin.rfl _ _
        cases hps : partStep cmp a1 left right k with
        | error e => rw [hps] at h; cases h
        | ok pr =>
          obtain ⟨a2, j⟩ := pr
          rw [hps] at h
          dsimp only at h
          obtain ⟨hl1, hk1, hr1⟩ := partStep_ok_bounds hps
          obtain ⟨a2', j', t, hok', hlen', hperm', hmov', hjlb', hjub', hpt', hlow', hhigh'⟩ :=
            partStep_spec hc hrl hr1 hk1
          rw [hps] at hok'
          injection hok' with hpair
          injection hpair with ha2e hje
          subst ha2e
          subst hje
          have hmov3 : MovedWithin (inReg left right k) a2 a' := by
            refine (ih h).mono ?_
            intro x hx
            cases hx with
            | inl hint =>
              obtain ⟨hx1, hx2⟩ := hint
              refine Or.inl ⟨?_, ?_⟩
              · by_cases hjk : j ≤ k
                · rw [if_pos hjk] at hx1
                  omega
                · rw [if_neg hjk] at hx1
                  omega
              · by_cases hkj : k ≤ j
                · rw [if_pos hkj] at hx2
                  omega
                · rw [if_neg hkj] at hx2
                  omega
            | inr hxk => exact Or.inr hxk
          exact (hmov1.comp hmov').comp hmov3
    · rw [if_neg hrl] at h
      cases h
      exact MovedWithin.rfl _ _

theorem select_ok {α : Type} {cmp : α → α → Ordering}
    {sampler : Nat → Nat → Nat → Nat × Nat} (hc : CmpOK cmp)
    (hs : Shrinking sampler) :
    ∀ (d : Nat) {fuel : Nat} {a : List α} {left right k : Nat},
    right - left ≤ d → d < fuel → right < a.length → k < a.length →
    ∃ a', select_ cmp sampler fuel a left right k = .ok a' := by
  intro d
  induction d using Nat.strong_induction_on with
  | _ d ih =>
    intro fuel a left right k hd hfuel hrlen hklen
    cases fuel with
    | zero => omega
    | succ fuel =>
      by_cases hrl : right > left
      · have hd1 : 1 ≤ d := by omega
        by_cases hcond : subsampleCond left right
        · -- the sub-sampling shortcut fires first
          have hAgt : right - left > A := by
            have := of_decide_eq_true hcond
            exact this
          have hshr := hs left right k hAgt
          set nl := max left (sampler left right k).1 with hnl
          set nr := min right (sampler left right k).2 with hnr
          have hsub1 : nr - nl < right - left := hshr
          obtain ⟨a1, hsub⟩ := @ih (nr - nl) (by omega) fuel a nl nr k
            (Nat.le_refl _) (by omega) (by omega) hklen
          have hlen1 : a1.length = a.length := (select_perm hsub).2
          obtain ⟨a2, j, t, hok, hlen2, hperm2, hmov2, hjlb, hjub, hpt, hlow, hhigh⟩ :=
            partStep_spec hc hrl (show right < a1.length by omega)
              (show k < a1.length by omega)
          set left' := if j ≤ k then j + 1 else left with hl'
          set right' := if k ≤ j then j - 1 else right with hr'
          have hnarrow : right' - left' < right - left := by
            rw [hl', hr']
            by_cases hjk : j ≤ k <;> by_cases hkj : k ≤ j <;>
              simp [hjk, hkj] <;> omega
          obtain ⟨a', htail⟩ := @ih (right' - left') (by omega) fuel a2 left' right' k
            (Nat.le_refl _) (by omega)
            (show right' < a2.length by
              rw [hr']
              by_cases hkj : k ≤ j <;> simp [hkj] <;> omega)
            (by omega)
          refine ⟨a', ?_⟩
          unfold select_
          rw [if_pos hrl, if_pos hcond]
          rw [hsub]
          dsimp only
          rw [hok]
          dsimp only
          exact htail
        · -- no shortcut: straight to the partition
          obtain ⟨a2, j, t, hok, hlen2, hperm2, hmov2, hjlb, hjub, hpt, hlow, hhigh⟩ :=
            partStep_spec hc hrl hrlen hklen
          set left' := if j ≤ k then j + 1 else left with hl'
          set right' := if k ≤ j then j - 1 else right with hr'
          have hnarrow : right' - left' < right - left := by
            rw [hl', hr']
            by_cases hjk : j ≤ k <;> by_cases hkj : k ≤ j <;>
              simp [hjk, hkj] <;> omega
          obtain ⟨a', htail⟩ := @ih (right' - left') (by omega) fuel a2 left' right' k
            (Nat.le_refl _) (by omega)
            (show right' < a2.length by
              rw [hr']
              by_cases hkj : k ≤ j <;> simp [hkj] <;> omega)
            (by omega)
          refine ⟨a', ?_⟩
          unfold select_
          rw [if_pos hrl, if_neg hcond]
          dsimp only
          rw [hok]
          dsimp only
          exact htail
      · refine ⟨a, ?_⟩
        unfold select_
        rw [if_neg hrl]

theorem select_part {α : Type} {cmp : α → α → Ordering}
    {sampler : Nat → Nat → Nat → Nat × Nat} (hc : CmpOK cmp) :
    ∀ {fuel : Nat} {a a' : List α} {left right k : Nat},
    left ≤ k → k ≤ right → right < a.length →
    INVL cmp a left right → INVR cmp a left right →
    select_ cmp sampler fuel a left right k = .ok a' →
    (∀ i, i < k → ∀ v w, a'[i]? = some v → a'[k]? = some w → cmp v w ≠ .gt) ∧
    (∀ i, k < i → i < a'.length →
      ∀ v w, a'[k]? = some v → a'[i]? = some w → cmp v w ≠ .gt) := by
  intro fuel
  induction fuel with
  | zero => intro a a' left right k _ _ _ _ _ h; cases h
  | succ fuel ih =>
    intro a a' left right k hk1 hk2 hrlen hinvl hinvr h
    by_cases hrl : right > left
    · rw [select_, if_pos hrl] at h
      cases hsub : (if subsampleCond left right then
          select_ cmp sampler fuel a (max left (sampler left right k).1)
            (min right (sampler left right k).2) k
        else .ok a) with
      | error e => rw [hsub] at h; cases h
      | ok a1 =>
        rw [hsub] at h
        dsimp only at h
        have hmov1 : MovedWithin (inReg left right k) a a1 := by
          by_cases hcond : subsampleCond left right
          · rw [if_pos hcond] at hsub
            refine (select_props hc hsub).mono ?_
            intro x hx
            cases hx with
            | inl hint =>
              refine Or.inl ⟨?_, ?_⟩
              · omega
              · have := hint.2
                omega
            | inr hxk => exact Or.inr hxk
          · rw [if_neg hcond] at hsub
            cases hsub
            exact MovedWithin.rfl _ _
        have hlen1 : a1.length = a.length := hmov1.1
        have hinvl1 : INVL cmp a1 left right :=
          INVL_moved hk1 hk2 hrlen hmov1 hinvl
        have hinvr1 : INVR cmp a1 left right := by
          have := INVR_moved hk1 hk2 hrlen hmov1 hinvr
          exact this
        cases hps : partStep cmp a1 left right k with
        | error e => rw [hps] at h; cases h
        | ok pr =>
          obtain ⟨a2, j⟩ := pr
          rw [hps] at h
          dsimp only at h
          obtain ⟨hl1, hk1', hr1⟩ := partStep_ok_bounds hps
          obtain ⟨a2', j', t, hok', hlen2, hperm2, hmov2, hjlb, hjub, hpt, hlow, hhigh⟩ :=
            partStep_spec hc hrl hr1 hk1'
          rw [hps] at hok'
          injection hok' with hpair
          injection hpair with ha2e hje
          subst ha2e
          subst hje
          have hlen2' : a2.length = a.length := by omega
          have hinvl2 : INVL cmp a2 left right :=
            INVL_moved hk1 hk2 (by omega) hmov2 hinvl1
          have hinvr2 : INVR cmp a2 left right :=
            INVR_moved hk1 hk2 (by omega) hmov2 hinvr1
          by_cases hin : (if j ≤ k then j + 1 else left) ≤ k ∧
              k ≤ (if k ≤ j then j - 1 else right)
          · -- the loop continues with the invariant re-established
            obtain ⟨hin1, hin2⟩ := hin
            have hjne : j ≠ k := by
              intro he
              subst he
              rw [if_pos (Nat.le_refl _)] at hin1
              omega
            refine ih hin1 hin2 ?_ ?_ ?_ h
            · by_cases hkj : k ≤ j <;> simp [hkj] <;> omega
            · -- new settled prefix
              intro x y hx hy1 hy2 v w hv hw
              have hy2r : y ≤ right := by
                by_cases hkj : k ≤ j
                · rw [if_pos hkj] at hy2
                  omega
                · rw [if_neg hkj] at hy2
                  omega
              by_cases hjk : j ≤ k
              · rw [if_pos hjk] at hx hy1
                by_cases hxl : x < left
                · exact hinvl2 x y hxl (by omega) hy2r v w hv hw
                · -- `left <= x <= j`: below or at the pivot
                  have hyt : ∀ u, a2[y]? = some u → cmp u t ≠ .lt :=
                    fun u hu => hhigh y (by omega) hy2r u hu
                  have htw : cmp t w ≠ .gt := hc.not_lt_iff.1 (hyt w hw)
                  by_cases hxj : x = j
                  · subst hxj
                    rw [hpt] at hv
                    cases hv
                    exact htw
                  · have hvt : cmp v t ≠ .gt := hlow x (by omega) (by omega) v hv
                    exact hc.le_trans hvt htw
              · rw [if_neg hjk] at hx hy1
                exact hinvl2 x y hx (by omega) hy2r v w hv hw
            · -- new settled suffix
              intro x y hx hxlen hy1 hy2 v w hv hw
              have hy1l : left ≤ y := by
                by_cases hjk : j ≤ k
                · rw [if_pos hjk] at hy1
                  omega
                · rw [if_neg hjk] at hy1
                  omega
              by_cases hkj : k ≤ j
              · rw [if_pos hkj] at hx hy2
                by_cases hxr : right < x
                · exact hinvr2 x y hxr hxlen hy1l (by omega) v w hv hw
                · -- `j <= x <= right`: at or above the pivot
                  have hyt : cmp v t ≠ .gt := hlow y hy1l (by omega) v hv
                  by_cases hxj : x = j
                  · subst hxj
                    rw [hpt] at hw
                    cases hw
                    exact hyt
                  · have hwt : cmp w t ≠ .lt := hhigh x (by omega) (by omega) w hw
                    exact hc.le_trans hyt (hc.not_lt_iff.1 hwt)
              · rw [if_neg hkj] at hx hy2
                exact hinvr2 x y hx hxlen hy1l hy2 v w hv hw
          · -- the loop exits: the pivot landed exactly on `k`
            have hjk : j = k := by
              by_cases h1 : j ≤ k <;> by_cases h2 : k ≤ j <;>
                simp [h1, h2] at hin <;> omega
            subst hjk
            have hguard : ¬ ((if j ≤ j then j - 1 else right) >
                (if (j : Nat) ≤ j then j + 1 else left)) := by
              simp
              omega
            have ha' : a' = a2 := by
              refine select_done ?_ h
              simpa using hguard
            subst ha'
            constructor
            · intro i hi v w hv hw
              by_cases hil : i < left
              · exact hinvl2 i j hil (by omega) (by omega) v w hv hw
              · rw [hpt] at hw
                cases hw
                exact hlow i (by omega) hi v hv
            · intro i hi hilen v w hv hw
              by_cases hir : right < i
              · exact hinvr2 i j hir (by omega) (by omega) (by omega) v w hv hw
              · rw [hpt] at hv
                cases hv
                exact hc.not_lt_iff.1 (hhigh i hi (by omega) w hw)
    · rw [select_, if_neg hrl] at h
      cases h
      have hkl : k = left := by omega
      have hkr : k = right := by omega
      constructor
      · intro i hi v w hv hw
        exact hinvl i k (by omega) (by omega) (by omega) v w hv hw
      · intro i hi hilen v w hv hw
        exact hinvr i k (by omega) hilen (by omega) (by omega) v w hv hw

/-- Embedding of `select` (floyd_rivest.rs lines 4-10): `let r = array.len() - 1`
underflows on an empty slice (a panic in debug builds, modelled as the
immediate `panic` error; release builds still fail before any mutation, at
the first bounds-checked `swap(left, k)`), otherwise the narrowing loop runs
on the whole range.  The fuel `a.length + 1` exceeds the bound
`(right - left) + 1` that `select_ok` shows suffices. -/
def selectE {α : Type} (cmp : α → α → Ordering)
    (sampler : Nat → Nat → Nat → Nat × Nat) (a : List α) (k : Nat) :
    Res α (List α) :=
  if a.length = 0 then .error (.panic, a)
  else select_ cmp sampler (a.length + 1) a 0 (a.length - 1) k

/-- Embedding of `kth_by` (lib.rs lines 189-194): run the selection and
return `&mut array[k]` — a bounds-checked read, hence the trailing panic
branch when `k` is out of range. -/
def kthByE {α : Type} (cmp : α → α → Ordering)
    (sampler : Nat → Nat → Nat → Nat × Nat) (a : List α) (k : Nat) :
    Res α (List α × α) :=
  match selectE cmp sampler a k with
  | .error e => .error e
  | .ok a' =>
    match a'[k]? with
    | some v => .ok (a', v)
    | none => .error (.panic, a')

/-- Embedding of `kth` (lib.rs lines 163-168): assert `k < array.len()`
before doing anything, then behave exactly as `kth_by` with `Ord::cmp`
(the comparator parameter stands for `Ord::cmp`). -/
def kthE {α : Type} (cmp : α → α → Ordering)
    (sampler : Nat → Nat → Nat → Nat × Nat) (a : List α) (k : Nat) :
    Res α (List α × α) :=
  if k < a.length then kthByE cmp sampler a k else .error (.panic, a)

theorem kthByE_spec {α : Type} {cmp : α → α → Ordering}
    {sampler : Nat → Nat → Nat → Nat × Nat} (hc : CmpOK cmp)
    (hs : Shrinking sampler) {a : List α} {k : Nat} (hk : k < a.length) :
    ∃ a' v, kthByE cmp sampler a k = .ok (a', v) ∧
      a'.length = a.length ∧ a'.Perm a ∧ a'[k]? = some v ∧
      (∀ i, i < k → ∀ u, a'[i]? = some u → cmp u v ≠ .gt) ∧
      (∀ i, k < i → i < a'.length → ∀ u, a'[i]? = some u → cmp u v ≠ .lt) := by
  have hlen : a.length ≠ 0 := by omega
  obtain ⟨a', hok⟩ := @select_ok α cmp sampler hc hs (a.length - 1)
    (a.length + 1) a 0 (a.length - 1) k (by omega) (by omega) (by omega) hk
  have hperm := select_perm hok
  have hinvl : INVL cmp a 0 (a.length - 1) := by
    intro x y hx hy1 hy2 v w hv hw
    exact absurd hx (by omega)
  have hinvr : INVR cmp a 0 (a.length - 1) := by
    intro x y hx hxlen hy1 hy2 v w hv hw
    exact absurd hxlen (by omega)
  obtain ⟨hlow, hhigh⟩ := @select_part α cmp sampler hc (a.length + 1) a a' 0
    (a.length - 1) k (Nat.zero_le _) (by omega) (by omega) hinvl hinvr hok
  have hka : k < a'.length := by omega
  have hv : a'[k]? = some (a'.get ⟨k, hka⟩) := by
    simpa using List.getElem?_eq_getElem hka
  refine ⟨a', a'.get ⟨k, hka⟩, ?_, hperm.2, hperm.1, hv, ?_, ?_⟩
  · unfold kthByE selectE
    rw [if_neg hlen, hok]
    dsimp only
    rw [hv]
  · intro i hi u hu
    exact hlow i hi u _ hu hv
  · intro i hi hilen u hu
    exact hc.not_gt_iff.1 (hhigh i hi hilen _ u hv hu)

theorem kthByE_invalid {α : Type} (cmp : α → α → Ordering)
    (sampler : Nat → Nat → Nat → Nat × Nat) (a : List α) (k : Nat)
    (hk : a.length ≤ k) :
    ∃ e, kthByE cmp sampler a k = .error (e, a) := by
  unfold kthByE selectE
  by_cases hlen : a.length = 0
  · rw [if_pos hlen]
    exact ⟨.panic, Eq.refl _⟩
  · rw [if_neg hlen]
    cases @select_invalidK α cmp sampler (a.length + 1) a 0 (a.length - 1) k hk with
    | inl hok =>
      rw [hok]
      dsimp only
      rw [List.getElem?_eq_none hk]
      exact ⟨.panic, Eq.refl _⟩
    | inr herr =>
      obtain ⟨e, herr⟩ := herr
      rw [herr]
      exact ⟨e, Eq.refl _⟩

/-- The not-greater relation induced by a comparator; `sorted(S)` in the
specification means sorted with respect to this relation. -/
def cmpLe {α : Type} (cmp : α → α → Ordering) (x y : α) : Prop := cmp x y ≠ .gt

instance {α : Type} (cmp : α → α → Ordering) : DecidableRel (cmpLe cmp) := by
  intro x y
  unfold cmpLe
  infer_instance

theorem cmpLe_total {α : Type} {cmp : α → α → Ordering} (hc : CmpOK cmp) :
    IsTotal α (cmpLe cmp) := by
  refine ⟨fun x y => ?_⟩
  cases hxy : cmp x y
  · exact Or.inl (by rw [cmpLe, hxy]; intro hcon; cases hcon)
  · exact Or.inl (by rw [cmpLe, hxy]; intro hcon; cases hcon)
  · refine Or.inr ?_
    rw [cmpLe, hc.gt_iff.1 hxy]
    intro hcon
    cases hcon

theorem cmpLe_trans {α : Type} {cmp : α → α → Ordering} (hc : CmpOK cmp) :
    IsTrans α (cmpLe cmp) :=
  ⟨fun _ _ _ h1 h2 => hc.le_trans h1 h2⟩

/-- The sorted version of a list under a comparator: `sorted(S)` of the
specification (insertion sort, any sorting algorithm gives a list with the
properties used here). -/
def sortedBy {α : Type} (cmp : α → α → Ordering) (l : List α) : List α :=
  List.insertionSort (cmpLe cmp) l

theorem sortedBy_perm {α : Type} (cmp : α → α → Ordering) (l : List α) :
    (sortedBy cmp l).Perm l :=
  List.perm_insertionSort (cmpLe cmp) l

theorem sortedBy_length {α : Type} (cmp : α → α → Ordering) (l : List α) :
    (sortedBy cmp l).length = l.length :=
  (sortedBy_perm cmp l).length_eq

theorem sortedBy_sorted {α : Type} {cmp : α → α → Ordering} (hc : CmpOK cmp)
    (l : List α) : List.Sorted (cmpLe cmp) (sortedBy cmp l) := by
  haveI := cmpLe_total hc
  haveI := cmpLe_trans hc
  exact List.sorted_insertionSort (cmpLe cmp) l

theorem sorted_rel {α : Type} {cmp : α → α → Ordering} (hc : CmpOK cmp)
    {T : List α} (hsort : List.Sorted (cmpLe cmp) T) {i j : Nat}
    (hij : i ≤ j) (hj : j < T.length)
    {v w : α} (hv : T[i]? = some v) (hw : T[j]? = some w) : cmp v w ≠ .gt := by
  by_cases hije : i = j
  · subst hije
    rw [hv] at hw
    cases hw
    rw [hc.refl v]
    intro hcon
    cases hcon
  · have hilt : i < j := by omega
    have hi : i < T.length := by omega
    have hrel := hsort.rel_get_of_lt
      (show (⟨i, hi⟩ : Fin T.length) < ⟨j, hj⟩ from hilt)
    have hv' := List.getElem?_eq_getElem hi
    have hw' := List.getElem?_eq_getElem hj
    rw [hv] at hv'
    rw [hw] at hw'
    cases hv'
    cases hw'
    simpa [List.get_eq_getElem] using hrel

/-- Rank characterisation: an element whose strictly-smaller count is at most
`k` and whose strictly-greater count is at most `length - 1 - k` compares
equal to position `k` of the sorted list. -/
theorem rank_char {α : Type} {cmp : α → α → Ordering} (hc : CmpOK cmp)
    (L : List α) (v : α) (k : Nat) (hk : k < L.length)
    (hlt : L.countP (fun y => cmp y v == .lt) ≤ k)
    (hgt : L.countP (fun y => cmp y v == .gt) + k + 1 ≤ L.length) :
    ∀ w, (sortedBy cmp L)[k]? = some w → cmp v w = .eq := by
  intro w hw
  set T := sortedBy cmp L with hT
  have hsortT : List.Sorted (cmpLe cmp) T := sortedBy_sorted hc L
  have hTlen : T.length = L.length := sortedBy_length cmp L
  have hkT : k < T.length := by omega
  have hcntlt : T.countP (fun y => cmp y v == .lt) = L.countP (fun y => cmp y v == .lt) :=
    (sortedBy_perm cmp L).countP_eq _
  have hcntgt : T.countP (fun y => cmp y v == .gt) = L.countP (fun y => cmp y v == .gt) :=
    (sortedBy_perm cmp L).countP_eq _
  have hsplit : ∀ (p : α → Bool) (n : Nat),
      T.countP p = (T.take n).countP p + (T.drop n).countP p := by
    intro p n
    have := congrArg (List.countP p) (List.take_append_drop n T)
    rw [List.countP_append] at this
    exact this.symm
  -- not every element at or before k can be smaller than v
  have key1 : cmp w v ≠ .lt := by
    intro hwlt
    have hall : ∀ u ∈ T.take (k+1), (fun y => cmp y v == .lt) u = true := by
      intro u hu
      obtain ⟨i, hi, hieq⟩ := List.mem_iff_getElem.1 hu
      have hik : i < k + 1 := by
        have := List.length_take_le (k+1) T
        omega
      have hiT : T[i]? = some u := by
        have h1 : (T.take (k+1))[i]? = some u := by
          rw [List.getElem?_eq_getElem hi, hieq]
        rw [List.getElem?_take] at h1
        rw [if_pos hik] at h1
        exact h1
      have hle : cmp u w ≠ .gt := sorted_rel hc hsortT (by omega) hkT hiT hw
      have hult := hc.lt_of_le_of_lt hle hwlt
      show (cmp u v == Ordering.lt) = true
      rw [hult]
      rfl
    have hcnt1 : (T.take (k+1)).countP (fun y => cmp y v == .lt) = (T.take (k+1)).length :=
      List.countP_eq_length.2 hall
    have hlen1 : (T.take (k+1)).length = k + 1 := by
      rw [List.length_take]
      omega
    have := hsplit (fun y => cmp y v == .lt) (k+1)
    omega
  -- not every element at or after k can be greater than v
  have key2 : cmp w v ≠ .gt := by
    intro hwgt
    have hall2 : ∀ u ∈ T.drop k, (fun y => cmp y v == .gt) u = true := by
      intro u hu
      obtain ⟨i, hi, hieq⟩ := List.mem_iff_getElem.1 hu
      have hiT : T[k+i]? = some u := by
        have h1 : (T.drop k)[i]? = some u := by
          rw [List.getElem?_eq_getElem hi, hieq]
        rw [List.getElem?_drop] at h1
        exact h1
      have hki : k + i < T.length := (List.getElem?_eq_some_iff.1 hiT).1
      have hle : cmp w u ≠ .gt := sorted_rel hc hsortT (by omega) (by omega) hw hiT
      have hvw : cmp v w = .lt := hc.lt_iff.2 hwgt
      have hvu : cmp v u = .lt := hc.lt_of_lt_of_le hvw hle
      have hugt := hc.lt_iff.1 hvu
      show (cmp u v == Ordering.gt) = true
      rw [hugt]
      rfl
    have hcnt2 : (T.drop k).countP (fun y => cmp y v == .gt) = (T.drop k).length :=
      List.countP_eq_length.2 hall2
    have hlen2 : (T.drop k).length = T.length - k := List.length_drop k T
    have := hsplit (fun y => cmp y v == .gt) k
    have hle2 : (T.take k).countP (fun y => cmp y v == .gt) ≤ k := by
      have := @List.countP_le_length α (fun y => cmp y v == .gt) (T.take k)
      have hlt : (T.take k).length ≤ k := List.length_take_le k T
      omega
    omega
  have hweq : cmp w v = .eq := hc.eq_of_not_lt_not_gt key1 key2
  rw [hc.symm v w, hweq]
  rfl

theorem ordering_beq_true {o o' : Ordering} (h : (o == o') = true) : o = o' := by
  cases o <;> cases o' <;> first | rfl | cases h

theorem countP_take_drop {α : Type} (p : α → Bool) (n : Nat) (l : List α) :
    l.countP p = (l.take n).countP p + (l.drop n).countP p := by
  have h := congrArg (List.countP p) (List.take_append_drop n l)
  rw [List.countP_append] at h
  exact h.symm

theorem kthByE_sorted {α : Type} {cmp : α → α → Ordering}
    {sampler : Nat → Nat → Nat → Nat × Nat} (hc : CmpOK cmp)
    (hs : Shrinking sampler) {a : List α} {k : Nat} (hk : k < a.length) :
    ∃ a' v, kthByE cmp sampler a k = .ok (a', v) ∧
      a'.length = a.length ∧ a'.Perm a ∧ a'[k]? = some v ∧
      (∀ w, (sortedBy cmp a)[k]? = some w → cmp v w = .eq) := by
  obtain ⟨a', v, hok, hlen, hperm, hv, hlow, hhigh⟩ := kthByE_spec hc hs hk
  refine ⟨a', v, hok, hlen, hperm, hv, ?_⟩
  have hcntlt : a.countP (fun y => cmp y v == .lt) ≤ k := by
    rw [← hperm.countP_eq, countP_take_drop _ k a']
    have h1 : (a'.take k).countP (fun y => cmp y v == .lt) ≤ k := by
      have hle := @List.countP_le_length α (fun y => cmp y v == .lt) (a'.take k)
      have hlt : (a'.take k).length ≤ k := List.length_take_le k a'
      omega
    have h2 : (a'.drop k).countP (fun y => cmp y v == .lt) = 0 := by
      rw [List.countP_eq_zero]
      intro u hu
      obtain ⟨i, hi, hieq⟩ := List.mem_iff_getElem.1 hu
      have hiT : a'[k+i]? = some u := by
        have h3 : (a'.drop k)[i]? = some u := by
          rw [List.getElem?_eq_getElem hi, hieq]
        rw [List.getElem?_drop] at h3
        exact h3
      have hki : k + i < a'.length := (List.getElem?_eq_some_iff.1 hiT).1
      intro hbeq
      have hult : cmp u v = .lt := ordering_beq_true hbeq
      cases Nat.eq_zero_or_pos i with
      | inl hz =>
        subst hz
        simp only [Nat.add_zero] at hiT
        rw [hv] at hiT
        cases hiT
        rw [hc.refl v] at hult
        cases hult
      | inr hpos =>
        exact hhigh (k+i) (by omega) hki u hiT hult
    omega
  have hcntgt : a.countP (fun y => cmp y v == .gt) + k + 1 ≤ a.length := by
    rw [← hperm.countP_eq, countP_take_drop _ (k+1) a']
    have h1 : (a'.take (k+1)).countP (fun y => cmp y v == .gt) = 0 := by
      rw [List.countP_eq_zero]
      intro u hu
      obtain ⟨i, hi, hieq⟩ := List.mem_iff_getElem.1 hu
      have hik : i < k + 1 := by
        have := List.length_take_le (k+1) a'
        omega
      have hiT : a'[i]? = some u := by
        have h3 : (a'.take (k+1))[i]? = some u := by
          rw [List.getElem?_eq_getElem hi, hieq]
        rw [List.getElem?_take, if_pos hik] at h3
        exact h3
      intro hbeq
      have hugt : cmp u v = .gt := ordering_beq_true hbeq
      by_cases hike : i = k
      · subst hike
        rw [hv] at hiT
        cases hiT
        rw [hc.refl v] at hugt
        cases hugt
      · exact hlow i (by omega) u hiT hugt
    have h2 := @List.countP_le_length α (fun y => cmp y v == .gt) (a'.drop (k+1))
    have h3 : (a'.drop (k+1)).length = a'.length - (k+1) := List.length_drop _ _
    omega
  exact rank_char hc a v k hk hcntlt hcntgt

/-- The nine compare-and-swap pairs of `median5` (mom.rs lines 105-115), in
source order; a pair `(a, b)` stands for
`if cmp(a_j, a_b) == Less { mem::swap(&mut a_j, &mut a_b) }`. -/
def med5Net : List (Fin 5 × Fin 5) :=
  [(1,0), (2,0), (3,0), (4,0), (2,1), (3,1), (4,1), (3,2), (4,2)]

/-- One compare-and-conditionally-swap of two of the five reference
variables.  `s` maps each variable `a_r` to the array position it currently
refers to, and `f` gives the element at each position; swapping the
references is swapping the entries of `s`. -/
def netStep {α : Type} (cmp : α → α → Ordering) (f : Fin 5 → α)
    (s : Fin 5 → Fin 5) (pq : Fin 5 × Fin 5) : Fin 5 → Fin 5 :=
  if cmp (f (s pq.1)) (f (s pq.2)) = .lt
  then Function.update (Function.update s pq.1 (s pq.2)) pq.2 (s pq.1)
  else s

/-- The position `a_2` refers to after the whole network has run: the value
`median5` computes back from the reference by pointer arithmetic. -/
def median5F {α : Type} (cmp : α → α → Ordering) (f : Fin 5 → α) : Fin 5 :=
  (med5Net.foldl (netStep cmp f) id) 2

/-- The five positions as seen through the references. -/
def reg5 {α : Type} (f : Fin 5 → α) (s : Fin 5 → Fin 5) : List α :=
  List.ofFn (fun r => f (s r))

theorem reg5_get {α : Type} (f : Fin 5 → α) (g : Fin 5 → Fin 5) (m : Nat)
    (hm : m < 5) : (reg5 f g)[m]? = some (f (g ⟨m, hm⟩)) := by
  have hml : m < (reg5 f g).length := by
    simp [reg5]
    omega
  rw [List.getElem?_eq_getElem hml]
  congr 1
  exact List.getElem_ofFn (fun r => f (g r)) m hml

theorem reg5_swap {α : Type} (f : Fin 5 → α) (s : Fin 5 → Fin 5) (p q : Fin 5)
    (hpq : p ≠ q) :
    reg5 f (Function.update (Function.update s p (s q)) q (s p)) =
      swapL (reg5 f s) p.val q.val := by
  have hlen : (reg5 f s).length = 5 := by
    simp [reg5]
  have hvpq : p.val ≠ q.val := fun h => hpq (Fin.ext h)
  refine List.ext_getElem? ?_
  intro n
  rw [getElem?_swapL (reg5 f s) p.val q.val (by omega) (by omega) n]
  by_cases hn : n < 5
  · rw [reg5_get f _ n hn]
    by_cases hnq : n = q.val
    · have hnp : ¬ n = p.val := by omega
      rw [if_neg hnp, if_pos hnq, reg5_get f s p.val p.isLt]
      have hfq : (⟨n, hn⟩ : Fin 5) = q := Fin.ext hnq
      rw [hfq, Function.update_apply, if_pos (Eq.refl _)]
    · by_cases hnp : n = p.val
      · rw [if_pos hnp, reg5_get f s q.val q.isLt]
        have hfp : (⟨n, hn⟩ : Fin 5) = p := Fin.ext hnp
        rw [hfp, Function.update_apply, if_neg hpq, Function.update_apply,
          if_pos (Eq.refl _)]
      · rw [if_neg hnp, if_neg hnq, reg5_get f s n hn]
        have h1 : ¬ (⟨n, hn⟩ : Fin 5) = q := fun h => hnq (congrArg Fin.val h)
        have h2 : ¬ (⟨n, hn⟩ : Fin 5) = p := fun h => hnp (congrArg Fin.val h)
        rw [Function.update_apply, if_neg h1, Function.update_apply, if_neg h2]
  · have hge : (reg5 f s).length ≤ n := by omega
    have hge2 : (reg5 f (Function.update (Function.update s p (s q)) q (s p))).length ≤ n := by
      simp [reg5]
      omega
    rw [List.getElem?_eq_none hge, List.getElem?_eq_none hge2]
    have hnp : ¬ n = p.val := by
      have := p.isLt
      omega
    have hnq : ¬ n = q.val := by
      have := q.isLt
      omega
    rw [if_neg hnp, if_neg hnq]

theorem netStep_perm {α : Type} (cmp : α → α → Ordering) (f : Fin 5 → α)
    (s : Fin 5 → Fin 5) (pq : Fin 5 × Fin 5) :
    (reg5 f (netStep cmp f s pq)).Perm (reg5 f s) := by
  unfold netStep
  split
  · by_cases hpq : pq.1 = pq.2
    · rw [hpq, Function.update_idem, Function.update_eq_self]
    · rw [reg5_swap f s pq.1 pq.2 hpq]
      exact perm_swapL _ _ _
  · exact List.Perm.refl _

theorem netStep_facts {α : Type} {cmp : α → α → Ordering} (hc : CmpOK cmp)
    (f : Fin 5 → α) (s s' : Fin 5 → Fin 5) (j b : Fin 5) (hjb : j ≠ b)
    (hs' : s' = netStep cmp f s (j, b)) :
    (cmp (f (s' b)) (f (s' j)) ≠ .gt) ∧
    (∀ r, r ≠ j → r ≠ b → s' r = s r) ∧
    (∀ z, cmp z (f (s j)) ≠ .gt → cmp z (f (s b)) ≠ .gt →
      cmp z (f (s' j)) ≠ .gt ∧ cmp z (f (s' b)) ≠ .gt) ∧
    (cmp (f (s' b)) (f (s j)) ≠ .gt ∧ cmp (f (s' b)) (f (s b)) ≠ .gt) := by
  unfold netStep at hs'
  dsimp only at hs'
  by_cases hcond : cmp (f (s j)) (f (s b)) = .lt
  · rw [if_pos hcond] at hs'
    have e1 : s' b = s j := by
      rw [hs', Function.update_same]
    have e2 : s' j = s b := by
      rw [hs', Function.update_apply, if_neg hjb, Function.update_same]
    have e3 : ∀ r, r ≠ j → r ≠ b → s' r = s r := by
      intro r h1 h2
      rw [hs', Function.update_apply, if_neg h2, Function.update_apply, if_neg h1]
    have hle : cmp (f (s j)) (f (s b)) ≠ .gt := by
      rw [hcond]
      intro hcon
      cases hcon
    refine ⟨?_, e3, ?_, ?_, ?_⟩
    · rw [e1, e2]
      exact hle
    · intro z hzj hzb
      rw [e1, e2]
      exact ⟨hzb, hzj⟩
    · rw [e1]
      rw [hc.refl (f (s j))]
      intro hcon
      cases hcon
    · rw [e1]
      exact hle
  · rw [if_neg hcond] at hs'
    have hge : cmp (f (s b)) (f (s j)) ≠ .gt := hc.not_lt_iff.1 hcond
    refine ⟨?_, ?_, ?_, ?_, ?_⟩
    · rw [hs']
      exact hge
    · intro r _ _
      rw [hs']
    · intro z hzj hzb
      rw [hs']
      exact ⟨hzj, hzb⟩
    · rw [hs']
      exact hge
    · rw [hs', hc.refl (f (s b))]
      intro hcon
      cases hcon

theorem median5F_spec {α : Type} {cmp : α → α → Ordering} (hc : CmpOK cmp)
    (f : Fin 5 → α) (s9 : Fin 5 → Fin 5)
    (hs9 : s9 = med5Net.foldl (netStep cmp f) id) :
    (cmp (f (s9 0)) (f (s9 2)) ≠ .gt) ∧
    (cmp (f (s9 1)) (f (s9 2)) ≠ .gt) ∧
    (cmp (f (s9 2)) (f (s9 3)) ≠ .gt) ∧
    (cmp (f (s9 2)) (f (s9 4)) ≠ .gt) ∧
    (reg5 f s9).Perm (reg5 f id) := by
  rw [show med5Net.foldl (netStep cmp f) id =
      netStep cmp f (netStep cmp f (netStep cmp f (netStep cmp f (netStep cmp f
        (netStep cmp f (netStep cmp f (netStep cmp f (netStep cmp f id
        (1,0)) (2,0)) (3,0)) (4,0)) (2,1)) (3,1)) (4,1)) (3,2)) (4,2) from by
    simp only [med5Net, List.foldl_cons, List.foldl_nil]] at hs9
  set s1 := netStep cmp f id (1,0) with hs1
  set s2 := netStep cmp f s1 (2,0) with hs2
  set s3 := netStep cmp f s2 (3,0) with hs3
  set s4 := netStep cmp f s3 (4,0) with hs4
  set s5 := netStep cmp f s4 (2,1) with hs5
  set s6 := netStep cmp f s5 (3,1) with hs6
  set s7 := netStep cmp f s6 (4,1) with hs7
  set s8 := netStep cmp f s7 (3,2) with hs8
  obtain ⟨G1, U1, C1, D1a, D1b⟩ := netStep_facts hc f id s1 1 0 (by decide) hs1
  obtain ⟨G2, U2, C2, D2a, D2b⟩ := netStep_facts hc f s1 s2 2 0 (by decide) hs2
  obtain ⟨G3, U3, C3, D3a, D3b⟩ := netStep_facts hc f s2 s3 3 0 (by decide) hs3
  obtain ⟨G4, U4, C4, D4a, D4b⟩ := netStep_facts hc f s3 s4 4 0 (by decide) hs4
  obtain ⟨G5, U5, C5, D5a, D5b⟩ := netStep_facts hc f s4 s5 2 1 (by decide) hs5
  obtain ⟨G6, U6, C6, D6a, D6b⟩ := netStep_facts hc f s5 s6 3 1 (by decide) hs6
  obtain ⟨G7, U7, C7, D7a, D7b⟩ := netStep_facts hc f s6 s7 4 1 (by decide) hs7
  obtain ⟨G8, U8, C8, D8a, D8b⟩ := netStep_facts hc f s7 s8 3 2 (by decide) hs8
  obtain ⟨G9, U9, C9, D9a, D9b⟩ := netStep_facts hc f s8 s9 4 2 (by decide) hs9
  -- after the first four steps, register 0 holds the minimum
  have A21 : cmp (f (s2 0)) (f (s2 1)) ≠ .gt := by
    rw [U2 1 (by decide) (by decide)]
    exact hc.le_trans D2b G1
  have A31 : cmp (f (s3 0)) (f (s3 1)) ≠ .gt := by
    rw [U3 1 (by decide) (by decide)]
    exact hc.le_trans D3b A21
  have A32 : cmp (f (s3 0)) (f (s3 2)) ≠ .gt := by
    rw [U3 2 (by decide) (by decide)]
    exact hc.le_trans D3b G2
  have A41 : cmp (f (s4 0)) (f (s4 1)) ≠ .gt := by
    rw [U4 1 (by decide) (by decide)]
    exact hc.le_trans D4b A31
  have A42 : cmp (f (s4 0)) (f (s4 2)) ≠ .gt := by
    rw [U4 2 (by decide) (by decide)]
    exact hc.le_trans D4b A32
  have A43 : cmp (f (s4 0)) (f (s4 3)) ≠ .gt := by
    rw [U4 3 (by decide) (by decide)]
    exact hc.le_trans D4b G3
  -- steps five to seven: register 1 becomes the second smallest
  have h50 : s5 0 = s4 0 := U5 0 (by decide) (by decide)
  obtain ⟨B52, B51⟩ := C5 (f (s4 0)) A42 A41
  have A51 : cmp (f (s5 0)) (f (s5 1)) ≠ .gt := by
    rw [h50]
    exact B51
  have A52 : cmp (f (s5 0)) (f (s5 2)) ≠ .gt := by
    rw [h50]
    exact B52
  have A53 : cmp (f (s5 0)) (f (s5 3)) ≠ .gt := by
    rw [h50, U5 3 (by decide) (by decide)]
    exact A43
  have A54 : cmp (f (s5 0)) (f (s5 4)) ≠ .gt := by
    rw [h50, U5 4 (by decide) (by decide)]
    exact G4
  have h60 : s6 0 = s5 0 := U6 0 (by decide) (by decide)
  obtain ⟨A63, A61⟩ := C6 (f (s5 0)) A53 A51
  have A62 : cmp (f (s6 0)) (f (s6 2)) ≠ .gt := by
    rw [h60, U6 2 (by decide) (by decide)]
    exact A52
  have A64 : cmp (f (s6 0)) (f (s6 4)) ≠ .gt := by
    rw [h60, U6 4 (by decide) (by decide)]
    exact A54
  have A61' : cmp (f (s6 0)) (f (s6 1)) ≠ .gt := by
    rw [h60]
    exact A61
  have A63' : cmp (f (s6 0)) (f (s6 3)) ≠ .gt := by
    rw [h60]
    exact A63
  have B62 : cmp (f (s6 1)) (f (s6 2)) ≠ .gt := by
    rw [U6 2 (by decide) (by decide)]
    exact hc.le_trans D6b G5
  have h70 : s7 0 = s6 0 := U7 0 (by decide) (by decide)
  obtain ⟨A74, A71⟩ := C7 (f (s6 0)) A64 A61'
  have A71' : cmp (f (s7 0)) (f (s7 1)) ≠ .gt := by
    rw [h70]
    exact A71
  have A74' : cmp (f (s7 0)) (f (s7 4)) ≠ .gt := by
    rw [h70]
    exact A74
  have A72 : cmp (f (s7 0)) (f (s7 2)) ≠ .gt := by
    rw [h70, U7 2 (by decide) (by decide)]
    exact A62
  have A73 : cmp (f (s7 0)) (f (s7 3)) ≠ .gt := by
    rw [h70, U7 3 (by decide) (by decide)]
    exact A63'
  have B72 : cmp (f (s7 1)) (f (s7 2)) ≠ .gt := by
    rw [U7 2 (by decide) (by decide)]
    exact hc.le_trans D7b B62
  have B73 : cmp (f (s7 1)) (f (s7 3)) ≠ .gt := by
    rw [U7 3 (by decide) (by decide)]
    exact hc.le_trans D7b G6
  -- steps eight and nine: register 2 becomes the third smallest
  have h80 : s8 0 = s7 0 := U8 0 (by decide) (by decide)
  have h81 : s8 1 = s7 1 := U8 1 (by decide) (by decide)
  obtain ⟨A83, A82⟩ := C8 (f (s7 0)) A73 A72
  have A82' : cmp (f (s8 0)) (f (s8 2)) ≠ .gt := by
    rw [h80]
    exact A82
  have A84 : cmp (f (s8 0)) (f (s8 4)) ≠ .gt := by
    rw [h80, U8 4 (by decide) (by decide)]
    exact A74'
  obtain ⟨B83, B82⟩ := C8 (f (s7 1)) B73 B72
  have B82' : cmp (f (s8 1)) (f (s8 2)) ≠ .gt := by
    rw [h81]
    exact B82
  have B84 : cmp (f (s8 1)) (f (s8 4)) ≠ .gt := by
    rw [h81, U8 4 (by decide) (by decide)]
    exact G7
  have h90 : s9 0 = s8 0 := U9 0 (by decide) (by decide)
  have h91 : s9 1 = s8 1 := U9 1 (by decide) (by decide)
  have F3 : cmp (f (s9 2)) (f (s9 3)) ≠ .gt := by
    rw [U9 3 (by decide) (by decide)]
    exact hc.le_trans D9b G8
  obtain ⟨F0a, F0b⟩ := C9 (f (s8 0)) A84 A82'
  have F0 : cmp (f (s9 0)) (f (s9 2)) ≠ .gt := by
    rw [h90]
    exact F0b
  obtain ⟨F1a, F1b⟩ := C9 (f (s8 1)) B84 B82'
  have F1 : cmp (f (s9 1)) (f (s9 2)) ≠ .gt := by
    rw [h91]
    exact F1b
  -- the registers always refer to the five original positions
  have P1 : (reg5 f s1).Perm (reg5 f id) := by
    rw [hs1]
    exact netStep_perm cmp f id (1,0)
  have P2 : (reg5 f s2).Perm (reg5 f s1) := by
    rw [hs2]
    exact netStep_perm cmp f s1 (2,0)
  have P3 : (reg5 f s3).Perm (reg5 f s2) := by
    rw [hs3]
    exact netStep_perm cmp f s2 (3,0)
  have P4 : (reg5 f s4).Perm (reg5 f s3) := by
    rw [hs4]
    exact netStep_perm cmp f s3 (4,0)
  have P5 : (reg5 f s5).Perm (reg5 f s4) := by
    rw [hs5]
    exact netStep_perm cmp f s4 (2,1)
  have P6 : (reg5 f s6).Perm (reg5 f s5) := by
    rw [hs6]
    exact netStep_perm cmp f s5 (3,1)
  have P7 : (reg5 f s7).Perm (reg5 f s6) := by
    rw [hs7]
    exact netStep_perm cmp f s6 (4,1)
  have P8 : (reg5 f s8).Perm (reg5 f s7) := by
    rw [hs8]
    exact netStep_perm cmp f s7 (3,2)
  have P9 : (reg5 f s9).Perm (reg5 f s8) := by
    rw [hs9]
    exact netStep_perm cmp f s8 (4,2)
  exact ⟨F0, F1, F3, G9,
    ((((((((P9.trans P8).trans P7).trans P6).trans P5).trans P4).trans P3).trans
      P2).trans P1)⟩

/-- Embedding of `median5` (mom.rs lines 81-122) for the non-zero-sized
case: run the nine-comparison network over references to the five elements
and return, as the source does through pointer arithmetic, the index of the
element the variable `a2` finally refers to.  The source `debug_assert`s
that the slice has exactly five elements; every caller passes exactly five,
and the embedding's fallback value for other shapes is never reached. -/
def median5L {α : Type} (cmp : α → α → Ordering) (l : List α) : Nat :=
  match l with
  | v0 :: v1 :: v2 :: v3 :: v4 :: _ =>
    (median5F cmp (fun i => [v0, v1, v2, v3, v4].get ⟨i.val, by simpa using i.isLt⟩)).val
  | _ => 0

theorem reg5_countP_le_high {α : Type} (p : α → Bool) (f : Fin 5 → α)
    (s : Fin 5 → Fin 5) (h2 : p (f (s 2)) = false) (h3 : p (f (s 3)) = false)
    (h4 : p (f (s 4)) = false) : (reg5 f s).countP p ≤ 2 := by
  have hlit : reg5 f s = [f (s 0), f (s 1), f (s 2), f (s 3), f (s 4)] := by
    rfl
  rw [hlit]
  simp only [List.countP_cons, List.countP_nil, h2, h3, h4]
  by_cases hp0 : p (f (s 0)) <;> by_cases hp1 : p (f (s 1)) <;> simp [hp0, hp1]

theorem reg5_countP_le_low {α : Type} (p : α → Bool) (f : Fin 5 → α)
    (s : Fin 5 → Fin 5) (h0 : p (f (s 0)) = false) (h1 : p (f (s 1)) = false)
    (h2 : p (f (s 2)) = false) : (reg5 f s).countP p ≤ 2 := by
  have hlit : reg5 f s = [f (s 0), f (s 1), f (s 2), f (s 3), f (s 4)] := by
    rfl
  rw [hlit]
  simp only [List.countP_cons, List.countP_nil, h0, h1, h2]
  by_cases hp3 : p (f (s 3)) <;> by_cases hp4 : p (f (s 4)) <;> simp [hp3, hp4]

theorem median5L_spec {α : Type} {cmp : α → α → Ordering} (hc : CmpOK cmp)
    (v0 v1 v2 v3 v4 : α) :
    median5L cmp [v0, v1, v2, v3, v4] < 5 ∧
    ∀ u, [v0, v1, v2, v3, v4][median5L cmp [v0, v1, v2, v3, v4]]? = some u →
      ∀ w, (sortedBy cmp [v0, v1, v2, v3, v4])[2]? = some w → cmp u w = .eq := by
  set f : Fin 5 → α :=
    fun i => [v0, v1, v2, v3, v4].get ⟨i.val, by simpa using i.isLt⟩ with hf
  obtain ⟨F0, F1, F3, F4, hperm⟩ :=
    median5F_spec hc f (med5Net.foldl (netStep cmp f) id) (Eq.refl _)
  have hm : median5L cmp [v0, v1, v2, v3, v4] =
      ((med5Net.foldl (netStep cmp f) id) 2).val := by
    rfl
  set s9 := med5Net.foldl (netStep cmp f) id with hs9
  set med := f (s9 2) with hmed
  have hidx : ∀ r : Fin 5, [v0, v1, v2, v3, v4][r.val]? = some (f r) := by
    intro r
    fin_cases r <;> rfl
  have hL : reg5 f id = [v0, v1, v2, v3, v4] := by
    rfl
  have hcnt : ∀ p : α → Bool,
      ([v0, v1, v2, v3, v4] : List α).countP p = (reg5 f s9).countP p := by
    intro p
    rw [← hL]
    exact (hperm.countP_eq p).symm
  have hlt : ([v0, v1, v2, v3, v4] : List α).countP (fun y => cmp y med == .lt) ≤ 2 := by
    rw [hcnt]
    refine reg5_countP_le_high _ f s9 ?_ ?_ ?_
    · rw [show cmp (f (s9 2)) med = .eq from hc.refl med]
      rfl
    · refine Bool.eq_false_iff.2 ?_
      intro hb
      exact (hc.not_gt_iff.1 F3) (ordering_beq_true hb)
    · refine Bool.eq_false_iff.2 ?_
      intro hb
      exact (hc.not_gt_iff.1 F4) (ordering_beq_true hb)
  have hgt : ([v0, v1, v2, v3, v4] : List α).countP (fun y => cmp y med == .gt) ≤ 2 := by
    rw [hcnt]
    refine reg5_countP_le_low _ f s9 ?_ ?_ ?_
    · refine Bool.eq_false_iff.2 ?_
      intro hb
      exact F0 (ordering_beq_true hb)
    · refine Bool.eq_false_iff.2 ?_
      intro hb
      exact F1 (ordering_beq_true hb)
    · rw [show cmp (f (s9 2)) med = .eq from hc.refl med]
      rfl
  have hrank := rank_char hc [v0, v1, v2, v3, v4] med 2 (by simp) hlt
    (by
      have hlen : ([v0, v1, v2, v3, v4] : List α).length = 5 := by simp
      omega)
  constructor
  · rw [hm]
    exact (s9 2).isLt
  · intro u hu w hw
    rw [hm, hidx (s9 2)] at hu
    cases hu
    exact hrank w hw

/-- Embedding of the group pass of `median_of_medians_by` (mom.rs lines
61-76): for each group index `i`, compute the index of the group's median —
through `median5` for a full group, through `kth_by` on the trailing slice
for a short one (the source recovers the index from the returned reference
by pointer arithmetic, which for a non-zero-sized type yields exactly
`start + trailing / 2`) — and swap it to position `i`.  The recursion
parameter `rem` counts the remaining iterations of `for i in 0..num_medians`. -/
def momLoop {α : Type} (cmp : α → α → Ordering)
    (sampler : Nat → Nat → Nat → Nat × Nat) :
    Nat → Nat → List α → Res α (List α)
  | 0, _, a => .ok a
  | rem+1, i, a =>
    match ((if a.length - 5 * i < 5 then
            match kthByE cmp sampler (a.drop (5 * i)) ((a.length - 5 * i) / 2) with
            | .error (e, sub) => .error (e, a.take (5 * i) ++ sub)
            | .ok (sub, _) => .ok (a.take (5 * i) ++ sub, 5 * i + (a.length - 5 * i) / 2)
          else
            .ok (a, 5 * i + median5L cmp ((a.drop (5 * i)).take 5))) :
          Res α (List α × Nat)) with
    | .error e => .error e
    | .ok (a1, idx) =>
      match swapE a1 i idx with
      | .error e => .error e
      | .ok a2 => momLoop cmp sampler rem (i+1) a2

/-- Embedding of `median_of_medians_by` (mom.rs lines 53-79): short inputs
delegate to `kth_by` at index `len / 2`; otherwise the group pass runs for
`num_medians = (len + 4) / 5` groups and `kth_by` selects index
`num_medians / 2` of the prefix of group medians.  The result is the final
array together with the returned index and element. -/
def momByE {α : Type} (cmp : α → α → Ordering)
    (sampler : Nat → Nat → Nat → Nat × Nat) (a : List α) :
    Res α (List α × Nat × α) :=
  if a.length < 5 then
    match kthByE cmp sampler a (a.length / 2) with
    | .error e => .error e
    | .ok (a1, v) => .ok (a1, a.length / 2, v)
  else
    match momLoop cmp sampler ((a.length + 4) / 5) 0 a with
    | .error e => .error e
    | .ok a1 =>
      match kthByE cmp sampler (a1.take ((a.length + 4) / 5)) ((a.length + 4) / 5 / 2) with
      | .error (e, pre) => .error (e, pre ++ a1.drop ((a.length + 4) / 5))
      | .ok (pre, v) => .ok (pre ++ a1.drop ((a.length + 4) / 5), (a.length + 4) / 5 / 2, v)

theorem kthByE_perm {α : Type} {cmp : α → α → Ordering}
    {sampler : Nat → Nat → Nat → Nat × Nat} {a a' : List α} {k : Nat} {v : α}
    (h : kthByE cmp sampler a k = .ok (a', v)) :
    a'.Perm a ∧ a'.length = a.length := by
  unfold kthByE selectE at h
  by_cases hlen : a.length = 0
  · rw [if_pos hlen] at h
    cases h
  · rw [if_neg hlen] at h
    cases hsel : select_ cmp sampler (a.length + 1) a 0 (a.length - 1) k with
    | error e => rw [hsel] at h; cases h
    | ok a1 =>
      rw [hsel] at h
      dsimp only at h
      cases hget : a1[k]? with
      | none => rw [hget] at h; cases h
      | some w =>
        rw [hget] at h
        dsimp only at h
        cases h
        exact select_perm hsel

theorem momLoop_perm {α : Type} {cmp : α → α → Ordering}
    {sampler : Nat → Nat → Nat → Nat × Nat} :
    ∀ {rem i : Nat} {a a' : List α},
    momLoop cmp sampler rem i a = .ok a' →
    a'.Perm a ∧ a'.length = a.length := by
  intro rem
  induction rem with
  | zero =>
    intro i a a' h
    cases h
    exact ⟨List.Perm.refl _, Eq.refl _⟩
  | succ rem ih =>
    intro i a a' h
    unfold momLoop at h
    cases hbr : ((if a.length - 5 * i < 5 then
        match kthByE cmp sampler (a.drop (5 * i)) ((a.length - 5 * i) / 2) with
        | .error (e, sub) => .error (e, a.take (5 * i) ++ sub)
        | .ok (sub, _) => .ok (a.take (5 * i) ++ sub, 5 * i + (a.length - 5 * i) / 2)
      else
        .ok (a, 5 * i + median5L cmp ((a.drop (5 * i)).take 5))) :
      Res α (List α × Nat)) with
    | error e => rw [hbr] at h; cases h
    | ok pr =>
      obtain ⟨a1, idx⟩ := pr
      rw [hbr] at h
      dsimp only at h
      have hperm1 : a1.Perm a ∧ a1.length = a.length := by
        by_cases htr : a.length - 5 * i < 5
        · rw [if_pos htr] at hbr
          cases hkth : kthByE cmp sampler (a.drop (5 * i)) ((a.length - 5 * i) / 2) with
          | error e =>
            rw [hkth] at hbr
            obtain ⟨e1, sub⟩ := e
            cases hbr
          | ok pr2 =>
            obtain ⟨sub, w⟩ := pr2
            rw [hkth] at hbr
            dsimp only at hbr
            injection hbr with hbr1
            injection hbr1 with hbre hbri
            obtain ⟨hp, hl⟩ := kthByE_perm hkth
            subst hbre
            constructor
            · have hstep : (a.take (5 * i) ++ sub).Perm
                  (a.take (5 * i) ++ a.drop (5 * i)) :=
                List.Perm.append_left _ hp
              rw [List.take_append_drop] at hstep
              exact hstep
            · rw [List.length_append, hl]
              have hsplit := congrArg List.length (List.take_append_drop (5 * i) a)
              rw [List.length_append] at hsplit
              exact hsplit
        · rw [if_neg htr] at hbr
          injection hbr with hbr1
          injection hbr1 with hbre hbri
          subst hbre
          exact ⟨List.Perm.refl _, Eq.refl _⟩
      cases hsw : swapE a1 i idx with
      | error e => rw [hsw] at h; cases h
      | ok a2 =>
        rw [hsw] at h
        dsimp only at h
        obtain ⟨_, _, ha2⟩ := swapE_ok hsw
        obtain ⟨hp3, hl3⟩ := ih h
        subst ha2
        refine ⟨(hp3.trans ?_).trans hperm1.1, ?_⟩
        · exact perm_swapL a1 i idx
        · rw [hl3, length_swapL]
          exact hperm1.2

theorem momByE_perm {α : Type} {cmp : α → α → Ordering}
    {sampler : Nat → Nat → Nat → Nat × Nat} {a a' : List α} {idx : Nat} {v : α}
    (h : momByE cmp sampler a = .ok (a', idx, v)) :
    a'.Perm a ∧ a'.length = a.length := by
  unfold momByE at h
  by_cases hlen : a.length < 5
  · rw [if_pos hlen] at h
    cases hkth : kthByE cmp sampler a (a.length / 2) with
    | error e => rw [hkth] at h; cases h
    | ok pr =>
      obtain ⟨a1, w⟩ := pr
      rw [hkth] at h
      dsimp only at h
      cases h
      exact kthByE_perm hkth
  · rw [if_neg hlen] at h
    cases hloop : momLoop cmp sampler ((a.length + 4) / 5) 0 a with
    | error e => rw [hloop] at h; cases h
    | ok a1 =>
      rw [hloop] at h
      dsimp only at h
      obtain ⟨hp1, hl1⟩ := momLoop_perm hloop
      cases hkth : kthByE cmp sampler (a1.take ((a.length + 4) / 5))
          ((a.length + 4) / 5 / 2) with
      | error e =>
        rw [hkth] at h
        obtain ⟨e1, pre⟩ := e
        cases h
      | ok pr =>
        obtain ⟨pre, w⟩ := pr
        rw [hkth] at h
        dsimp only at h
        cases h
        obtain ⟨hp2, hl2⟩ := kthByE_perm hkth
        constructor
        · have hstep : (pre ++ a1.drop ((a.length + 4) / 5)).Perm
              (a1.take ((a.length + 4) / 5) ++ a1.drop ((a.length + 4) / 5)) :=
            List.Perm.append_right _ hp2
          rw [List.take_append_drop] at hstep
          exact hstep.trans hp1
        · rw [List.length_append, hl2, ← List.length_append,
            List.take_append_drop]
          exact hl1

theorem momByE_empty {α : Type} (cmp : α → α → Ordering)
    (sampler : Nat → Nat → Nat → Nat × Nat) :
    momByE cmp sampler ([] : List α) = .error (.panic, []) := by
  rfl

/-- Alias: `median_of_medians` (mom.rs lines 26-28) is literally
`median_of_medians_by(array, Ord::cmp)`; the comparator parameter stands for
`Ord::cmp`. -/
def momE {α : Type} (cmp : α → α → Ordering)
    (sampler : Nat → Nat → Nat → Nat × Nat) (a : List α) :
    Res α (List α × Nat × α) :=
  momByE cmp sampler a

/-- A concrete shrinking sampler used by the witnesses; the claims and
theorems quantify over every sampler. -/
def oneSampler : Nat → Nat → Nat → Nat × Nat := fun left _right _k => (left + 1, left + 1)

theorem oneSampler_shrinking : Shrinking oneSampler := by
  intro left right k h
  unfold A at h
  unfold oneSampler
  dsimp only
  omega

theorem cmpOK_natCompare : CmpOK (compare : Nat → Nat → Ordering) := by
  constructor
  · intro x y
    rcases Nat.lt_trichotomy x y with h | h | h
    · rw [Nat.compare_eq_lt.2 h, Nat.compare_eq_gt.2 h]
      rfl
    · subst h
      rw [Nat.compare_eq_eq.2 (Eq.refl x)]
      rfl
    · rw [Nat.compare_eq_gt.2 h, Nat.compare_eq_lt.2 h]
      rfl
  · intro x y z h1 h2
    have hxy : x ≤ y := by
      by_contra hcon
      exact h1 (Nat.compare_eq_gt.2 (by omega))
    have hyz : y ≤ z := by
      by_contra hcon
      exact h2 (Nat.compare_eq_gt.2 (by omega))
    intro hcon
    have := Nat.compare_eq_gt.1 hcon
    omega

/-- C1: for every finite sequence, every index `k < length`, and every
consistent comparator, `kth_by` (and `kth`, which is the same call behind its
assert) succeeds, returns the element at position `k` of the mutated
sequence (the reference designates position `k`), and that element compares
equal to `sorted(S)[k]`, the k-th smallest element of the multiset.  The
sampler abstracts the f32 sub-range formula and is assumed shrinking so that
the recursion terminates. -/
theorem kth_selects_kth_smallest {α : Type} (cmp : α → α → Ordering)
    (sampler : Nat → Nat → Nat → Nat × Nat) (a : List α) (k : Nat)
    (hc : CmpOK cmp) (hs : Shrinking sampler) (hk : k < a.length) :
    (∃ a' v, kthByE cmp sampler a k = .ok (a', v) ∧ a'[k]? = some v ∧
      ∀ w, (sortedBy cmp a)[k]? = some w → cmp v w = .eq) ∧
    (∃ a' v, kthE cmp sampler a k = .ok (a', v) ∧ a'[k]? = some v ∧
      ∀ w, (sortedBy cmp a)[k]? = some w → cmp v w = .eq) := by
  obtain ⟨a', v, hok, hlen, hperm, hv, hrank⟩ := kthByE_sorted hc hs hk
  refine ⟨⟨a', v, hok, hv, hrank⟩, ⟨a', v, ?_, hv, hrank⟩⟩
  unfold kthE
  rw [if_pos hk]
  exact hok

/-- C1 witness: the concrete run `kth_by([2,3,0,1], 1)` with the natural
order and a concrete shrinking sampler. -/
theorem kth_selects_kth_smallest_witness :
    (∃ a' v, kthByE compare oneSampler [2, 3, 0, 1] 1 = .ok (a', v) ∧
      a'[1]? = some v ∧
      ∀ w, (sortedBy compare [2, 3, 0, 1])[1]? = some w → compare v w = .eq) ∧
    (∃ a' v, kthE compare oneSampler [2, 3, 0, 1] 1 = .ok (a', v) ∧
      a'[1]? = some v ∧
      ∀ w, (sortedBy compare [2, 3, 0, 1])[1]? = some w → compare v w = .eq) :=
  kth_selects_kth_smallest compare oneSampler [2, 3, 0, 1] 1
    cmpOK_natCompare oneSampler_shrinking (by decide)

/-- C2: the claimed percentile bound fails on the code.  For the input
`[0, 1, 2, 3, 4, 5, 6]` (`n = 7`) the group pass keeps the medians `2` (of
the full group `[0..4]`) and `6` (of the short trailing group `[5, 6]`,
whose local median index is `trailing/2 = 1`), and selecting index
`num_medians/2 = 1` of `[2, 6]` returns `m = 6` — the maximum of the input.
The claim requires `m ≤ T[min(ceil(0.7*(n-1)), n-1)] = T[5] = 5` (and the
repository's own quickcheck property in mom.rs asserts
`m ≤ x[min((7n+9)/10, n-1)] = x[5]`), but `compare 6 5 = gt`.  The doc
comment of `median_of_medians` ("guaranteed to lie between the 30th and 70th
percentiles") is contradicted as well, so the code, not the claim, is at
fault. -/
theorem mom_percentile_bound_fails :
    momByE compare oneSampler [0, 1, 2, 3, 4, 5, 6] =
      .ok ([2, 6, 0, 3, 4, 5, 1], 1, 6) ∧
    min ((7 * (7 - 1) + 9) / 10) (7 - 1) = 5 ∧
    (sortedBy compare [0, 1, 2, 3, 4, 5, 6])[5]? = some 5 ∧
    compare 6 5 = .gt := by
  refine ⟨?_, ?_, ?_, ?_⟩ <;> rfl

/-- C3: after a successful selection every element left of `k` compares
not-greater than the element at `k`, and every element right of `k` compares
not-less than it. -/
theorem kth_partition_invariant {α : Type} (cmp : α → α → Ordering)
    (sampler : Nat → Nat → Nat → Nat × Nat) (a : List α) (k : Nat)
    (hc : CmpOK cmp) (hs : Shrinking sampler) (hk : k < a.length) :
    ∃ a' v, kthByE cmp sampler a k = .ok (a', v) ∧ a'[k]? = some v ∧
      (∀ i, i < k → ∀ u, a'[i]? = some u → cmp u v ≠ .gt) ∧
      (∀ i, k < i → i < a'.length → ∀ u, a'[i]? = some u → cmp u v ≠ .lt) := by
  obtain ⟨a', v, hok, hlen, hperm, hv, hlow, hhigh⟩ := kthByE_spec hc hs hk
  exact ⟨a', v, hok, hv, hlow, hhigh⟩

/-- C3 witness: the partition invariant on the concrete run
`kth_by([2,3,0,1], 1)`. -/
theorem kth_partition_invariant_witness :
    ∃ a' v, kthByE compare oneSampler [2, 3, 0, 1] 1 = .ok (a', v) ∧
      a'[1]? = some v ∧
      (∀ i, i < 1 → ∀ u, a'[i]? = some u → compare u v ≠ .gt) ∧
      (∀ i, 1 < i → i < a'.length → ∀ u, a'[i]? = some u → compare u v ≠ .lt) :=
  kth_partition_invariant compare oneSampler [2, 3, 0, 1] 1
    cmpOK_natCompare oneSampler_shrinking (by decide)

/-- C4: the claim of memory safety under arbitrary comparators fails on the
code.  With the comparator that always answers `Less`, the unguarded raw
pointer scan `while cmp(&*arr_ptr.add(i), t) == Less { i += 1 }`
(floyd_rivest.rs lines 54-56) walks past the end of the slice: on
`kth_by([0, 1], 0)` it reads index 2 of a 2-element slice, undefined
behaviour in the source, the `ub` error of the embedding.  The sequence held
at the moment of the bad read is unchanged, `[0, 1]`. -/
theorem kth_by_out_of_bounds_on_bad_cmp :
    kthByE (fun _ _ => Ordering.lt) oneSampler [0, 1] 0 =
      .error (.ub, [0, 1]) := by
  rfl

/-- C5: every public operation that fails on invalid input — `kth` and
`kth_by` with `k >= length`, `median_of_medians_by` (and hence
`median_of_medians`) on an empty sequence — fails before any mutation: the
array carried at the point of failure is exactly the input.  This holds for
every comparator and sampler: `kth` asserts up front; `kth_by` reaches
`array.swap(left, k)` as its first array operation and the bounds check
panics before swapping (length 0 panics at `array.len() - 1` in the
embedding's debug semantics); the empty median case delegates to
`kth_by([], 0)`. -/
theorem invalid_input_fails_before_mutation {α : Type}
    (cmp : α → α → Ordering) (sampler : Nat → Nat → Nat → Nat × Nat)
    (a : List α) (k : Nat) (hk : a.length ≤ k) :
    (∃ e, kthE cmp sampler a k = .error (e, a)) ∧
    (∃ e, kthByE cmp sampler a k = .error (e, a)) ∧
    momByE cmp sampler ([] : List α) = .error (.panic, []) ∧
    momE cmp sampler ([] : List α) = .error (.panic, []) := by
  refine ⟨⟨.panic, ?_⟩, kthByE_invalid cmp sampler a k hk, momByE_empty cmp sampler,
    momByE_empty cmp sampler⟩
  unfold kthE
  rw [if_neg (by omega)]

/-- C5 witness: concrete invalid calls leave the concrete arrays untouched. -/
theorem invalid_input_fails_before_mutation_witness :
    (∃ e, kthE compare oneSampler [7, 8] 5 = .error (e, [7, 8])) ∧
    (∃ e, kthByE compare oneSampler [7, 8] 5 = .error (e, [7, 8])) ∧
    momByE compare oneSampler ([] : List Nat) = .error (.panic, []) ∧
    momE compare oneSampler ([] : List Nat) = .error (.panic, []) :=
  invalid_input_fails_before_mutation compare oneSampler [7, 8] 5 (by decide)

/-- C6: `kth_by` fails exactly when `k >= length`: it fails (for any
comparator behaviour past the bounds check, here stated under the claim's
consistency assumptions) when `k >= length`, and for `k < length` it returns
normally with the reference designating position `k`. -/
theorem kth_by_fails_iff_out_of_range {α : Type} (cmp : α → α → Ordering)
    (sampler : Nat → Nat → Nat → Nat × Nat) (a : List α) (k : Nat)
    (hc : CmpOK cmp) (hs : Shrinking sampler) :
    (a.length ≤ k → ∃ e arr, kthByE cmp sampler a k = .error (e, arr)) ∧
    (k < a.length → ∃ a' v, kthByE cmp sampler a k = .ok (a', v) ∧
      a'[k]? = some v) := by
  constructor
  · intro hk
    obtain ⟨e, he⟩ := kthByE_invalid cmp sampler a k hk
    exact ⟨e, a, he⟩
  · intro hk
    obtain ⟨a', v, hok, hlen, hperm, hv, hlow, hhigh⟩ := kthByE_spec hc hs hk
    exact ⟨a', v, hok, hv⟩

/-- C6 witness: both directions at concrete inputs. -/
theorem kth_by_fails_iff_out_of_range_witness :
    ((([3, 1, 2] : List Nat).length ≤ 7 →
      ∃ e arr, kthByE compare oneSampler [3, 1, 2] 7 = .error (e, arr)) ∧
     (7 < ([3, 1, 2] : List Nat).length →
      ∃ a' v, kthByE compare oneSampler [3, 1, 2] 7 = .ok (a', v) ∧
        a'[7]? = some v)) ∧
    ((([3, 1, 2] : List Nat).length ≤ 1 →
      ∃ e arr, kthByE compare oneSampler [3, 1, 2] 1 = .error (e, arr)) ∧
     (1 < ([3, 1, 2] : List Nat).length →
      ∃ a' v, kthByE compare oneSampler [3, 1, 2] 1 = .ok (a', v) ∧
        a'[1]? = some v)) :=
  ⟨kth_by_fails_iff_out_of_range compare oneSampler [3, 1, 2] 7
      cmpOK_natCompare oneSampler_shrinking,
   kth_by_fails_iff_out_of_range compare oneSampler [3, 1, 2] 1
      cmpOK_natCompare oneSampler_shrinking⟩

/-- C7: the median-of-five network is a fixed sequence of exactly 9
pairwise compare-and-conditionally-swap operations on references
(`med5Net` lists them in source order, each entry performing exactly one
comparison in `netStep`), and for every consistent comparator it returns an
index in `0..4` whose element compares equal to the 3rd smallest (position 2
of the sorted five).  The embedding consumes the slice read-only — it
returns only the index — mirroring the `&[T]` borrow of the source. -/
theorem median5_returns_middle {α : Type} (cmp : α → α → Ordering)
    (hc : CmpOK cmp) (v0 v1 v2 v3 v4 : α) :
    med5Net.length = 9 ∧
    median5L cmp [v0, v1, v2, v3, v4] < 5 ∧
    (∀ u, [v0, v1, v2, v3, v4][median5L cmp [v0, v1, v2, v3, v4]]? = some u →
      ∀ w, (sortedBy cmp [v0, v1, v2, v3, v4])[2]? = some w → cmp u w = .eq) := by
  obtain ⟨h1, h2⟩ := median5L_spec hc v0 v1 v2 v3 v4
  exact ⟨Eq.refl _, h1, h2⟩

/-- C7 witness: the network on the concrete slice `[3, 1, 4, 0, 2]`. -/
theorem median5_returns_middle_witness :
    med5Net.length = 9 ∧
    median5L compare [3, 1, 4, 0, 2] < 5 ∧
    (∀ u, ([3, 1, 4, 0, 2] : List Nat)[median5L compare [3, 1, 4, 0, 2]]? = some u →
      ∀ w, (sortedBy compare [3, 1, 4, 0, 2])[2]? = some w → compare u w = .eq) :=
  median5_returns_middle compare cmpOK_natCompare 3 1 4 0 2

/-- C8: for every sequence — duplicate-heavy ones included — and valid `k`,
with a consistent comparator and a shrinking sampler, the selection
terminates successfully: the embedding returns `ok` within its finite fuel
(`length + 1` nested calls suffice because every iteration strictly narrows
the range), so no infinite loop, no out-of-bounds access and no fuel
exhaustion occurs. -/
theorem kth_by_terminates_in_bounds {α : Type} (cmp : α → α → Ordering)
    (sampler : Nat → Nat → Nat → Nat × Nat) (a : List α) (k : Nat)
    (hc : CmpOK cmp) (hs : Shrinking sampler) (hk : k < a.length) :
    ∃ out, kthByE cmp sampler a k = .ok out := by
  obtain ⟨a', v, hok, hlen, hperm, hv, hlow, hhigh⟩ := kthByE_spec hc hs hk
  exact ⟨(a', v), hok⟩

/-- C8 witness: the all-equal sequence, the classical worst case for
partition loops. -/
theorem kth_by_terminates_in_bounds_witness :
    ∃ out, kthByE compare oneSampler [5, 5, 5, 5, 5] 2 = .ok out :=
  kth_by_terminates_in_bounds compare oneSampler [5, 5, 5, 5, 5] 2
    cmpOK_natCompare oneSampler_shrinking (by decide)

/-- C9 counterexample: the claim says the sub-sampling shortcut fires
exactly when the range length exceeds 600 elements, but the guard of the
shortcut in `select_` is `subsampleCond`, i.e. `right - left > 600`: for the
range `[0, 600]` of 601 elements the length exceeds 600 yet the shortcut
does not fire. -/
theorem subsample_threshold_claim_fails :
    600 - 0 + 1 > 600 ∧ subsampleCond 0 600 = false := by
  constructor
  · decide
  · rfl

/-- C9 (amended): the sub-sampling shortcut of `select_` fires exactly when
the inclusive range `[left, right]` has more than 601 elements, i.e. when
`right - left > 600`. -/
theorem subsample_threshold {left right : Nat} :
    subsampleCond left right = true ↔ right - left + 1 > 601 := by
  unfold subsampleCond A
  rw [decide_eq_true_iff]
  omega

/-- C10: every successful public call mutates the sequence only by swapping
pairs of positions, so the final sequence is a permutation of the input (the
element multisets agree); this holds for every comparator and sampler. -/
theorem public_ops_permute {α : Type} (cmp : α → α → Ordering)
    (sampler : Nat → Nat → Nat → Nat × Nat) :
    (∀ (a a' : List α) (k : Nat) (v : α),
      kthE cmp sampler a k = .ok (a', v) → a'.Perm a) ∧
    (∀ (a a' : List α) (k : Nat) (v : α),
      kthByE cmp sampler a k = .ok (a', v) → a'.Perm a) ∧
    (∀ (a a' : List α) (idx : Nat) (v : α),
      momByE cmp sampler a = .ok (a', idx, v) → a'.Perm a) ∧
    (∀ (a a' : List α) (idx : Nat) (v : α),
      momE cmp sampler a = .ok (a', idx, v) → a'.Perm a) := by
  have hby : ∀ (a a' : List α) (k : Nat) (v : α),
      kthByE cmp sampler a k = .ok (a', v) → a'.Perm a :=
    fun a a' k v h => (kthByE_perm h).1
  refine ⟨?_, hby, fun a a' idx v h => (momByE_perm h).1,
    fun a a' idx v h => (momByE_perm h).1⟩
  intro a a' k v h
  unfold kthE at h
  by_cases hk : k < a.length
  · rw [if_pos hk] at h
    exact hby a a' k v h
  · rw [if_neg hk] at h
    cases h

/-- C10 witness: concrete successful runs of the four operations, each
output a permutation of its input. -/
theorem public_ops_permute_witness :
    ([0, 1, 2, 3] : List Nat).Perm [2, 3, 0, 1] ∧
    ([0, 1, 2, 3] : List Nat).Perm [2, 3, 0, 1] ∧
    ([2, 6, 0, 3, 4, 5, 1] : List Nat).Perm [0, 1, 2, 3, 4, 5, 6] ∧
    ([2, 6, 0, 3, 4, 5, 1] : List Nat).Perm [0, 1, 2, 3, 4, 5, 6] :=
  ⟨(public_ops_permute compare oneSampler).1 [2, 3, 0, 1] [0, 1, 2, 3] 1 1 (by rfl),
   (public_ops_permute compare oneSampler).2.1 [2, 3, 0, 1] [0, 1, 2, 3] 1 1 (by rfl),
   (public_ops_permute compare oneSampler).2.2.1 [0, 1, 2, 3, 4, 5, 6]
     [2, 6, 0, 3, 4, 5, 1] 1 6 (by rfl),
   (public_ops_permute compare oneSampler).2.2.2 [0, 1, 2, 3, 4, 5, 6]
     [2, 6, 0, 3, 4, 5, 1] 1 6 (by rfl)⟩

end OrderStat
